import Mathlib

/-!
Verification of the TAPAS tokenizer core (tokenization_tapas.py): table
serialization, budget fitting, numeric ranking and relations, answer
alignment, and prediction decoding, shallowly embedded in Lean.

Conventions of the embedding:
  - Python ints are modelled as Nat where the source only ever holds
    nonnegative values of the given quantity, and as Int where negative
    intermediate values occur (token budgets, word-begin indexes).
  - Python floats are modelled as rationals; float NaN is modelled by
    Option (none = NaN).
  - Python functions that can raise are modelled with Option or Except.
  - Python list mutation (ranks[index] = v) is modelled by List.set folds.
  - Python set objects are modelled by first-occurrence-deduplicated lists;
    only membership and cardinality of these sets are ever consumed.
-/

namespace Tapas

/-- Rendering of token.startswith("##") from _is_inner_wordpiece, stated on
the character list of the token. -/
def _is_inner_wordpiece (token : String) : Bool :=
  token.data.take 2 == ['#', '#']

/-- TokenCoordinates dataclass: location of one subword token in a table. -/
structure TokenCoordinates where
  column_index : ℕ
  row_index : ℕ
  token_index : ℕ
deriving DecidableEq, Repr

/-- TokenizedTable dataclass: rows of cells of subword tokens (row 0 is the
header row), plus the flat coordinate list produced by _tokenize_table. -/
structure TokenizedTable where
  rows : List (List (List String))
  selected_tokens : List TokenCoordinates
deriving DecidableEq, Repr

/-- Coordinate generation loop of _tokenize_table: rows outer, columns
inner, tokens innermost. -/
def mkTokenCoordinates (rows : List (List (List String))) : List TokenCoordinates :=
  rows.enum.flatMap fun rr =>
    rr.2.enum.flatMap fun cc =>
      (List.range cc.2.length).map fun t =>
        { column_index := cc.1, row_index := rr.1, token_index := t }

/-- Cell lookup table.rows[row_index][column_index] with out-of-range
defaults (all in-spec uses are in range). -/
def cellAt (t : TokenizedTable) (tc : TokenCoordinates) : List String :=
  (t.rows.getD tc.row_index []).getD tc.column_index []

/-- While loop of _get_table_values: starting at token index i, walk left
while the token is an inner wordpiece; result is the word-begin index, or
-1 when every token down to index 0 is an inner piece. -/
def wordBeginIndex (cell : List String) : ℕ → ℤ
  | 0 => if _is_inner_wordpiece (cell.getD 0 "") then -1 else 0
  | i + 1 => if _is_inner_wordpiece (cell.getD (i + 1) "") then wordBeginIndex cell i else ((i : ℤ) + 1)

/-- TableValue named tuple: a table token with its column id and row id. -/
structure TableValue where
  token : String
  column_id : ℕ
  row_id : ℕ
deriving DecidableEq, Repr

/-- Inclusion test of _get_table_values for one coordinate entry: the row
must be within the first num_rows data rows (the header, row index 0, is
always within), the column within num_columns, and the token's word-begin
index within the per-cell token cap. -/
def tableValueAt (t : TokenizedTable) (num_columns num_rows num_tokens : ℕ)
    (tc : TokenCoordinates) : Option TableValue :=
  if tc.row_index ≥ num_rows + 1 then none
  else if tc.column_index ≥ num_columns then none
  else
    let cell := cellAt t tc
    if wordBeginIndex cell tc.token_index ≥ (num_tokens : ℤ) then none
    else some { token := cell.getD tc.token_index "", column_id := tc.column_index + 1, row_id := tc.row_index }

/-- Generator _get_table_values: iterates selected_tokens in order and
yields the included tokens with their 1-based column id and their row
index as row id. -/
def _get_table_values (t : TokenizedTable) (num_columns num_rows num_tokens : ℕ) :
    List TableValue :=
  t.selected_tokens.filterMap (tableValueAt t num_columns num_rows num_tokens)

/-- Function _serialize_text: CLS token then the question tokens, all
tagged segment 0, column 0, row 0. -/
def _serialize_text (cls_token : String) (question_tokens : List String) :
    List String × List ℕ × List ℕ × List ℕ :=
  (cls_token :: question_tokens,
   List.replicate (1 + question_tokens.length) 0,
   List.replicate (1 + question_tokens.length) 0,
   List.replicate (1 + question_tokens.length) 0)

/-- SerializedExample dataclass: parallel token / segment / column / row
sequences. -/
structure SerializedExample where
  tokens : List String
  column_ids : List ℕ
  row_ids : List ℕ
  segment_ids : List ℕ
deriving DecidableEq, Repr

/-- Function _serialize: question prefix from _serialize_text, one SEP
token tagged (0,0,0), then the table values tagged segment 1. -/
def _serialize (cls_token sep_token : String) (question_tokens : List String)
    (t : TokenizedTable) (num_columns num_rows num_tokens : ℕ) : SerializedExample :=
  let q := _serialize_text cls_token question_tokens
  let tvs := _get_table_values t num_columns num_rows num_tokens
  { tokens := q.1 ++ [sep_token] ++ tvs.map (·.token)
    segment_ids := q.2.1 ++ [0] ++ tvs.map (fun _ => 1)
    column_ids := q.2.2.1 ++ [0] ++ tvs.map (·.column_id)
    row_ids := q.2.2.2 ++ [0] ++ tvs.map (·.row_id) }

/-- Function _question_encoding_cost: two extra spots for SEP and CLS. -/
def _question_encoding_cost (question_tokens : List String) : ℕ :=
  question_tokens.length + 2

/-- Function _get_token_budget: tokens left for the table given the model
max length; an over-long question makes the budget negative. -/
def _get_token_budget (model_max_length : ℕ) (question_tokens : List String) : ℤ :=
  (model_max_length : ℤ) - (_question_encoding_cost question_tokens : ℤ)

/-- Function _get_table_boundaries: maximal number of rows, columns and
tokens over selected_tokens, rows and columns clamped to the configured
max ids inside the fold exactly as in the source loop. -/
def _get_table_boundaries (max_column_id max_row_id : ℕ) (t : TokenizedTable) : ℕ × ℕ × ℕ :=
  t.selected_tokens.foldl
    (fun acc tc =>
      (min max_row_id (max acc.1 (tc.row_index + 1)),
       min max_column_id (max acc.2.1 (tc.column_index + 1)),
       max acc.2.2 (tc.token_index + 1)))
    (0, 0, 0)

/-- Function _get_table_cost: number of table values yielded at the given
caps. -/
def _get_table_cost (t : TokenizedTable) (num_columns num_rows num_tokens : ℕ) : ℕ :=
  (_get_table_values t num_columns num_rows num_tokens).length

/-- Break scan of _get_max_num_tokens: the final value of the loop
variable num_tokens, namely the first k in range(max_num_tokens + 1) whose
probed cost exceeds the budget, and max_num_tokens when no k breaks. -/
def numTokensScan (token_budget : ℤ) (t : TokenizedTable) (num_columns num_rows max_num_tokens : ℕ) : ℕ :=
  ((List.range (max_num_tokens + 1)).find?
    (fun k => decide ((_get_table_cost t num_columns num_rows (k + 1) : ℤ) > token_budget))).getD
    max_num_tokens

/-- Search bound of _get_max_num_tokens: the observed maximal per-cell
token count, lowered to cell_trim_length when that cap is configured
(nonnegative) and smaller. -/
def cappedMaxNumTokens (cell_trim_length : ℤ) (max_column_id max_row_id : ℕ)
    (t : TokenizedTable) : ℕ :=
  let m0 := (_get_table_boundaries max_column_id max_row_id t).2.2
  if 0 ≤ cell_trim_length ∧ cell_trim_length < (m0 : ℤ) then cell_trim_length.toNat else m0

/-- Function _get_max_num_tokens: per-cell token cap squeezed into the
budget; cell_trim_length ≥ 0 caps the search and disables dynamic
trimming; returns none (ValueError upstream) when the search fails. -/
def _get_max_num_tokens (model_max_length : ℕ) (cell_trim_length : ℤ)
    (max_column_id max_row_id : ℕ) (question_tokens : List String)
    (t : TokenizedTable) (num_columns num_rows : ℕ) : Option ℕ :=
  let token_budget := _get_token_budget model_max_length question_tokens
  let max_num_tokens := cappedMaxNumTokens cell_trim_length max_column_id max_row_id t
  let num_tokens := numTokensScan token_budget t num_columns num_rows max_num_tokens
  if num_tokens < max_num_tokens then
    if 0 ≤ cell_trim_length then none
    else if num_tokens = 0 then none
    else some num_tokens
  else some num_tokens

/-- Fitting loop of _to_trimmed_features: retry _get_max_num_tokens,
dropping one row per failed attempt when drop_rows_to_fit is set, until it
fits or zero rows remain; returns the fitted (num_rows, num_tokens), or
none for the ValueError "Sequence too long". -/
def _to_trimmed_features_fit (model_max_length : ℕ) (cell_trim_length : ℤ)
    (max_column_id max_row_id : ℕ) (drop_rows_to_fit : Bool)
    (question_tokens : List String) (t : TokenizedTable) (num_columns : ℕ) :
    ℕ → Option (ℕ × ℕ)
  | 0 =>
    match _get_max_num_tokens model_max_length cell_trim_length max_column_id max_row_id question_tokens t num_columns 0 with
    | some nt => some (0, nt)
    | none => none
  | nr + 1 =>
    match _get_max_num_tokens model_max_length cell_trim_length max_column_id max_row_id question_tokens t num_columns (nr + 1) with
    | some nt => some (nr + 1, nt)
    | none =>
      if drop_rows_to_fit then
        _to_trimmed_features_fit model_max_length cell_trim_length max_column_id max_row_id drop_rows_to_fit question_tokens t num_columns nr
      else none

/-- Function _pad_to_seq_length: pop until at most model_max_length, then
append zeros until exactly model_max_length. -/
def _pad_to_seq_length (model_max_length : ℕ) (inputs : List ℕ) : List ℕ :=
  inputs.take model_max_length ++ List.replicate (model_max_length - inputs.length) 0

/-- Date dataclass; the integer fields are represented directly by the
rationals they are cast to in _get_value_as_primitive_value. -/
structure Date where
  year : Option ℚ
  month : Option ℚ
  day : Option ℚ
deriving DecidableEq, Repr

/-- NumericValue dataclass: float variant or (partial) date variant. -/
structure NumericValue where
  float_value : Option ℚ
  date : Option Date
deriving DecidableEq, Repr

/-- Field of a Date by tuple position, in the fixed order year, month,
day used by the primitive value triple. -/
def Date.field : Date → ℕ → Option ℚ
  | d, 0 => d.year
  | d, 1 => d.month
  | d, 2 => d.day
  | _, _ + 3 => none

/-- Value type tags NUMBER_TYPE and DATE_TYPE. -/
inductive ValueType
  | number
  | date
deriving DecidableEq, Repr

/-- Function _get_value_type; none models the raised ValueError for a
value with neither variant populated. -/
def _get_value_type (v : NumericValue) : Option ValueType :=
  if v.float_value.isSome then some .number
  else if v.date.isSome then some .date
  else none

/-- The sort key function returned by get_numeric_sort_key_fn, reified:
either the identity on floats or a date-tuple projection to the commonly
populated indexes. -/
inductive SortKeyFn
  | numberKey
  | dateKey (valid_indexes : List ℕ)
deriving DecidableEq, Repr

/-- Application of a reified sort key to a value, producing the comparable
tuple as a rational list (Python compares floats and equal-length float
tuples, both of which the lexicographic list order captures). The getD
defaults are never reached on the value types the key was built for. -/
def applySortKey : SortKeyFn → NumericValue → List ℚ
  | .numberKey, v => [v.float_value.getD 0]
  | .dateKey idxs, v => idxs.map (fun i => ((v.date.getD ⟨none, none, none⟩).field i).getD 0)

/-- Failure conditions of get_numeric_sort_key_fn (all raised as
ValueError in the source). -/
inductive SortKeyError
  | unknownType
  | noCommonType
  | noCommonFields
deriving DecidableEq, Repr

/-- Branch of get_numeric_sort_key_fn on the deduplicated value types:
a unique number type yields the identity float key; a unique date type
intersects the populated field indexes across all values, failing when
the intersection is empty; anything else has no common type. -/
def sortKeyOfTypes (numeric_values : List NumericValue) (types : List ValueType) :
    Except SortKeyError SortKeyFn :=
  match types.dedup with
  | [ValueType.number] => .ok .numberKey
  | [ValueType.date] =>
    let valid_indexes := (List.range 3).filter
      (fun i => numeric_values.all (fun v => ((v.date.getD ⟨none, none, none⟩).field i).isSome))
    if valid_indexes.isEmpty then .error .noCommonFields
    else .ok (.dateKey valid_indexes)
  | _ => .error .noCommonType

/-- Function get_numeric_sort_key_fn: requires a single common value
type; for dates, intersects the populated field indexes across all values
and fails when the intersection is empty. -/
def get_numeric_sort_key_fn (numeric_values : List NumericValue) : Except SortKeyError SortKeyFn :=
  match numeric_values.mapM _get_value_type with
  | none => .error .unknownType
  | some types => sortKeyOfTypes numeric_values types

/-- Relation enum with the source ordinals. -/
inductive Relation
  | HEADER_TO_CELL
  | CELL_TO_HEADER
  | QUERY_TO_HEADER
  | QUERY_TO_CELL
  | ROW_TO_CELL
  | CELL_TO_ROW
  | EQ
  | LT
  | GT
deriving DecidableEq, Repr

/-- Enum ordinal (the .value attribute). -/
def Relation.val : Relation → ℕ
  | .HEADER_TO_CELL => 1
  | .CELL_TO_HEADER => 2
  | .QUERY_TO_HEADER => 3
  | .QUERY_TO_CELL => 4
  | .ROW_TO_CELL => 5
  | .CELL_TO_ROW => 6
  | .EQ => 7
  | .LT => 8
  | .GT => 9

/-- Function get_numeric_relation: compares the two values under the sort
key; EQ on key equality, LT when the question value is smaller, GT when
greater. -/
def get_numeric_relation (value other_value : NumericValue) (sort_key_fn : SortKeyFn) : Option Relation :=
  let v := applySortKey sort_key_fn value
  let o := applySortKey sort_key_fn other_value
  if v = o then some .EQ
  else if v < o then some .LT
  else if o < v then some .GT
  else none

/-- Model of the pandas table consumed by the numeric feature builders,
with cell texts already run through the numeric parser: cells[row][col]
is the ordered candidate NumericValue list that parsing the cell text
yields (empty when the text bears no value). This abstracts exactly the
output interface of _parse_column_values' call to _get_numeric_values. -/
structure NTable where
  num_columns : ℕ
  cells : List (List (List NumericValue))
deriving Repr

/-- Function _parse_column_values: maps every data-row index to the parsed
candidate values of that row's cell in the given column. -/
def _parse_column_values (t : NTable) (col_index : ℕ) : List (ℕ × List NumericValue) :=
  t.cells.enum.map (fun rr => (rr.1, rr.2.getD col_index []))

/-- Function _get_column_values: keep only rows with at least one parsed
value, and keep the first candidate value of each. -/
def _get_column_values (table_numeric_values : List (ℕ × List NumericValue)) :
    List (ℕ × NumericValue) :=
  table_numeric_values.filterMap (fun rv =>
    match rv.2 with
    | [] => none
    | v :: _ => some (rv.1, v))

/-- The columns_to_numeric_values dictionary built in
_add_numeric_column_ranks, as a function of the column: per column, the
filtered numeric values. -/
def columnsToNumericValues (t : NTable) (col_index : ℕ) : List (ℕ × NumericValue) :=
  _get_column_values (_parse_column_values t col_index)

/-- Generator _get_cell_token_indexes: all positions whose column id and
row id name the given cell; the source condition column_ids[index] - 1 ==
column_id over Python ints is rendered over naturals as equality with
column_id + 1. -/
def _get_cell_token_indexes (column_ids row_ids : List ℕ) (column_id row_id : ℕ) : List ℕ :=
  (List.range column_ids.length).filter
    (fun i => column_ids.getD i 0 == column_id + 1 && row_ids.getD i 0 == row_id + 1)

/-- Sequence of in-place assignments arr[index] = v over a list of
indexes. -/
def setIdxs {α : Type} (l : List α) (idxs : List ℕ) (v : α) : List α :=
  idxs.foldl (fun acc i => acc.set i v) l

/-- First-occurrence deduplication, the key order of a Python dict built
by insertion (used for table_numeric_values_inv's keys). -/
def dedupFirst {α : Type} [DecidableEq α] : List α → List α
  | [] => []
  | a :: l => a :: dedupFirst (l.filter (fun b => b ≠ a))
termination_by l => l.length
decreasing_by
  simpa using Nat.lt_succ_of_le (List.length_filter_le _ _)

/-- Rank assignment write plan of _add_numeric_column_ranks for one
column: for each sorted unique key in order, for each row carrying that
key in order, the pair (rank + 1, number of unique keys - rank) to write
over that row's tokens. -/
def rankAssignments (keyed : List (ℕ × List ℚ)) (sortedUniq : List (List ℚ)) :
    List (ℕ × ℕ × ℕ) :=
  sortedUniq.enum.flatMap (fun rv =>
    (keyed.filter (fun x => x.2 = rv.2)).map (fun x =>
      (x.1, rv.1 + 1, sortedUniq.length - rv.1)))

/-- Per-column body of _add_numeric_column_ranks: build the sort key over
the column's values (skipping the column on ValueError), group key-equal
rows, and write rank and inverse rank over every token of every cell of
the group; Python's sorted() over the dict keys is rendered by
insertionSort over the first-occurrence key list. -/
def _add_numeric_column_ranks_body (column_ids row_ids : List ℕ) (t : NTable)
    (acc : List ℕ × List ℕ) (col_index : ℕ) : List ℕ × List ℕ :=
  let tnv := columnsToNumericValues t col_index
  if tnv.isEmpty then acc
  else
    match get_numeric_sort_key_fn (tnv.map (·.2)) with
    | .error _ => acc
    | .ok key_fn =>
      let keyed := tnv.map (fun rv => (rv.1, applySortKey key_fn rv.2))
      let sortedUniq := (dedupFirst (keyed.map (·.2))).insertionSort (· ≤ ·)
      (rankAssignments keyed sortedUniq).foldl (fun acc2 a =>
        let idxs := _get_cell_token_indexes column_ids row_ids col_index a.1
        (setIdxs acc2.1 idxs a.2.1, setIdxs acc2.2 idxs a.2.2)) acc

/-- Function _add_numeric_column_ranks: run the per-column body over every
column of the table, starting from all-zero rank arrays. -/
def _add_numeric_column_ranks (column_ids row_ids : List ℕ) (table : Option NTable) :
    List ℕ × List ℕ :=
  let init : List ℕ × List ℕ :=
    (List.replicate column_ids.length 0, List.replicate column_ids.length 0)
  match table with
  | none => init
  | some t =>
    (List.range t.num_columns).foldl (_add_numeric_column_ranks_body column_ids row_ids t) init

/-- Method _get_numeric_sort_key_fn: sort key over the column's values
plus the question value; none when the column is empty or on ValueError. -/
def _get_numeric_sort_key_fn (table_numeric_values : List (ℕ × NumericValue))
    (value : NumericValue) : Option SortKeyFn :=
  if table_numeric_values.isEmpty then none
  else
    match get_numeric_sort_key_fn (table_numeric_values.map (·.2) ++ [value]) with
    | .ok fn => some fn
    | .error _ => none

/-- Set-valued dict update cell_indices_to_relations[key].add(rel):
append a fresh key at the end, and append the relation to the key's set
when not already present. -/
def assocAdd (m : List ((ℕ × ℕ) × List Relation)) (key : ℕ × ℕ) (rel : Relation) :
    List ((ℕ × ℕ) × List Relation) :=
  match m with
  | [] => [(key, [rel])]
  | e :: rest =>
    if e.1 = key then
      (if rel ∈ e.2 then e :: rest else (e.1, e.2 ++ [rel]) :: rest)
    else e :: assocAdd rest key rel

/-- Accumulation loop of _add_numeric_relations: for every numeric value
of the question (the values of its numeric spans, flattened in order),
for every column with a usable common sort key, record the relation of
the question value to every cell value of the column. -/
def cellIndicesToRelations (question_values : List NumericValue) (t : NTable) :
    List ((ℕ × ℕ) × List Relation) :=
  question_values.foldl (fun m value =>
    (List.range t.num_columns).foldl (fun m col_index =>
      let tnv := columnsToNumericValues t col_index
      match _get_numeric_sort_key_fn tnv value with
      | none => m
      | some sort_key_fn =>
        tnv.foldl (fun m rv =>
          match get_numeric_relation value rv.2 sort_key_fn with
          | none => m
          | some rel => assocAdd m (col_index, rv.1) rel) m) m) []

/-- Bitmask encoding of a relation set: sum of 2 ^ (ordinal - EQ ordinal)
over the distinct relations (the source asserts every recorded relation
has ordinal at least EQ's). -/
def relationSetIndex (rels : List Relation) : ℕ :=
  (rels.map (fun r => 2 ^ (r.val - Relation.EQ.val))).sum

/-- Function _add_numeric_relations: write each cell's relation bitmask
over every token of the cell, 0 elsewhere. -/
def _add_numeric_relations (question_values : List NumericValue)
    (column_ids row_ids : List ℕ) (table : Option NTable) : List ℕ :=
  let init := List.replicate column_ids.length 0
  match table with
  | none => init
  | some t =>
    (cellIndicesToRelations question_values t).foldl (fun arr e =>
      setIdxs arr (_get_cell_token_indexes column_ids row_ids e.1.1 e.1.2)
        (relationSetIndex e.2)) init

/-- Function _add_numeric_values: NaN-initialised (none) float sequence of
the model max length; every float-valued cell writes its float over all
its tokens. The source's lookup columns_to_numeric_values[col][row]
raises KeyError for a row the filtered dict dropped; the outer none
models that uncaught exception. The float("inf") guard of the source is
unrepresentable over the rationals and so has no rendering. -/
def _add_numeric_values (model_max_length : ℕ) (table : Option NTable)
    (column_ids row_ids : List ℕ) : Option (List (Option ℚ)) :=
  let init : List (Option ℚ) := List.replicate model_max_length none
  match table with
  | none => some init
  | some t =>
    (List.range t.num_columns).foldlM (fun arr col_index =>
      if (columnsToNumericValues t col_index).isEmpty then some arr
      else
        (List.range t.cells.length).foldlM (fun arr row_index =>
          match (columnsToNumericValues t col_index).lookup row_index with
          | none => none
          | some nv =>
            match nv.float_value with
            | none => some arr
            | some x =>
              some (setIdxs arr (_get_cell_token_indexes column_ids row_ids col_index row_index) (some x))) arr)
      init

/-- Function _add_numeric_values_scale: scale sequence of the model max
length, 1.0 everywhere except that every cell occupying more than one
token writes its token count over all its tokens. -/
def _add_numeric_values_scale (model_max_length : ℕ) (table : Option NTable)
    (column_ids row_ids : List ℕ) : List ℚ :=
  let init : List ℚ := List.replicate model_max_length 1
  match table with
  | none => init
  | some t =>
    (List.range t.num_columns).foldl (fun arr col_index =>
      (List.range t.cells.length).foldl (fun arr row_index =>
        let indices := _get_cell_token_indexes column_ids row_ids col_index row_index
        if 1 < indices.length then setIdxs arr indices (indices.length : ℚ) else arr) arr)
      init

/-- The per-query feature bundle assembled by _to_features. -/
structure Features where
  input_ids : List ℕ
  attention_mask : List ℕ
  segment_ids : List ℕ
  column_ids : List ℕ
  row_ids : List ℕ
  column_ranks : List ℕ
  inv_column_ranks : List ℕ
  numeric_relations : List ℕ
  numeric_values : List (Option ℚ)
  numeric_values_scale : List ℚ

/-- Function _to_features: checks the parallel id sequences against the
token sequence length (ValueError "Inconsistent length" as none), builds
and pads input ids and attention mask, pads the id sequences, then runs
the four numeric feature writers on the padded sequences; the question's
parsed numeric values stand in for the question text. -/
def _to_features (model_max_length : ℕ) (convert_token_to_id : String → ℕ)
    (tokens : List String) (segment_ids column_ids row_ids : List ℕ)
    (table : Option NTable) (question_values : List NumericValue) : Option Features :=
  if segment_ids.length ≠ tokens.length ∨ column_ids.length ≠ tokens.length
      ∨ row_ids.length ≠ tokens.length then none
  else
    let input_ids := _pad_to_seq_length model_max_length (tokens.map convert_token_to_id)
    let attention_mask := _pad_to_seq_length model_max_length (List.replicate tokens.length 1)
    let seg := _pad_to_seq_length model_max_length segment_ids
    let col := _pad_to_seq_length model_max_length column_ids
    let row := _pad_to_seq_length model_max_length row_ids
    let rk := _add_numeric_column_ranks col row table
    let rel := _add_numeric_relations question_values col row table
    match _add_numeric_values model_max_length table col row with
    | none => none
    | some nv =>
      some { input_ids := input_ids, attention_mask := attention_mask,
             segment_ids := seg, column_ids := col, row_ids := row,
             column_ranks := rk.1, inv_column_ranks := rk.2,
             numeric_relations := rel, numeric_values := nv,
             numeric_values_scale := _add_numeric_values_scale model_max_length table col row }

/-- Python set.add over an insertion-ordered list representation. -/
def setInsert {α : Type} [DecidableEq α] (l : List α) (x : α) : List α :=
  if x ∈ l then l else l ++ [x]

/-- Function _get_all_answer_ids_from_coordinates: mark every token of
every named (column, row) cell with 1 and count the named cells (as a
set) that matched no token; the Python sets found_answers and
all_answers are insertion-ordered lists consumed only for cardinality. -/
def _get_all_answer_ids_from_coordinates (column_ids row_ids : List ℕ)
    (answers_list : List (ℕ × ℕ)) : List ℕ × ℕ :=
  let res := answers_list.foldl (fun acc ans =>
    let all := setInsert acc.2.2 ans
    let idxs := _get_cell_token_indexes column_ids row_ids ans.1 ans.2
    let found := if idxs.isEmpty then acc.2.1 else setInsert acc.2.1 ans
    (setIdxs acc.1 idxs 1, found, all))
    (List.replicate column_ids.length 0, ([] : List (ℕ × ℕ)), ([] : List (ℕ × ℕ)))
  (res.1, res.2.2.length - res.2.1.length)

/-- Function _get_all_answer_ids: the TSV coordinates arrive as
(row, column) and are swapped to (column, row). -/
def _get_all_answer_ids (column_ids row_ids : List ℕ)
    (answer_coordinates : List (ℕ × ℕ)) : List ℕ × ℕ :=
  _get_all_answer_ids_from_coordinates column_ids row_ids
    (answer_coordinates.map (fun coords => (coords.2, coords.1)))

/-- Function _get_answer_ids: raises (none) when any answer cell matched
no token. -/
def _get_answer_ids (column_ids row_ids : List ℕ)
    (answer_coordinates : List (ℕ × ℕ)) : Option (List ℕ) :=
  let r := _get_all_answer_ids column_ids row_ids answer_coordinates
  if r.2 ≠ 0 then none else some r.1

/-- Qualifying filter of _get_cell_token_probs: table segment with
positive column and row ids (the source subtracts 1 and requires
nonnegativity over Python ints). -/
def tokenQualifies (segment_ids column_ids row_ids : List ℕ) (i : ℕ) : Prop :=
  1 ≤ column_ids.getD i 0 ∧ 1 ≤ row_ids.getD i 0 ∧ segment_ids.getD i 0 = 1

instance (segment_ids column_ids row_ids : List ℕ) (i : ℕ) :
    Decidable (tokenQualifies segment_ids column_ids row_ids i) := by
  unfold tokenQualifies
  infer_instance

/-- Probabilities grouped on one cell by _get_mean_cell_probs: the
qualifying token probabilities whose ids name the cell, in token order. -/
def cellProbList (probabilities : List ℚ) (segment_ids row_ids column_ids : List ℕ)
    (col row : ℕ) : List ℚ :=
  (List.range probabilities.length).filterMap (fun i =>
    if tokenQualifies segment_ids column_ids row_ids i
        ∧ column_ids.getD i 0 = col + 1 ∧ row_ids.getD i 0 = row + 1
    then some (probabilities.getD i 0) else none)

/-- Function _get_mean_cell_probs at one (column, row) key: the mean of
the cell's token probabilities, undefined (absent dict key) for a cell
with no qualifying token. -/
def _get_mean_cell_probs (probabilities : List ℚ) (segment_ids row_ids column_ids : List ℕ)
    (col row : ℕ) : Option ℚ :=
  let ps := cellProbList probabilities segment_ids row_ids column_ids col row
  if ps.isEmpty then none else some (ps.sum / (ps.length : ℚ))

/-- One batch element of convert_logits_to_predictions: the per-token
probabilities (already multiplied by the attention mask) and the id rows
recovered from the token type ids. -/
structure ExampleData where
  probabilities : List ℚ
  segment_ids : List ℕ
  row_ids : List ℕ
  column_ids : List ℕ
deriving Repr

/-- Ascending (row, column) order used by Python's sorted() on coordinate
tuples. -/
def coordLe (a b : ℕ × ℕ) : Prop :=
  a.1 < b.1 ∨ (a.1 = b.1 ∧ a.2 ≤ b.2)

instance : DecidableRel coordLe := by
  unfold coordLe
  infer_instance

instance : IsTotal (ℕ × ℕ) coordLe := by
  constructor
  intro a b
  rcases Nat.lt_trichotomy a.1 b.1 with h | h | h
  · exact Or.inl (Or.inl h)
  · rcases Nat.le_total a.2 b.2 with h2 | h2
    · exact Or.inl (Or.inr ⟨h, h2⟩)
    · exact Or.inr (Or.inr ⟨h.symm, h2⟩)
  · exact Or.inr (Or.inl h)

instance : IsTrans (ℕ × ℕ) coordLe := by
  constructor
  rintro a b c (h | ⟨h, h2⟩) (g | ⟨g, g2⟩)
  · exact Or.inl (h.trans g)
  · exact Or.inl (g ▸ h)
  · exact Or.inl (h ▸ g)
  · exact Or.inr ⟨h.trans g, h2.trans g2⟩

/-- Per-example body of convert_logits_to_predictions: none models the
continue that skips an example whose maximal column id and row id are
both zero; otherwise the cells of [0, max_width) x [0, max_height) whose
mean probability exceeds the threshold, emitted as (row, column) and
sorted ascending. -/
def decodeExample (d : ExampleData) (threshold : ℚ) : Option (List (ℕ × ℕ)) :=
  let max_width := d.column_ids.foldl max 0
  let max_height := d.row_ids.foldl max 0
  if max_width = 0 ∧ max_height = 0 then none
  else
    some (((List.range max_width).flatMap (fun col =>
      (List.range max_height).filterMap (fun row =>
        match _get_mean_cell_probs d.probabilities d.segment_ids d.row_ids d.column_ids col row with
        | none => none
        | some p => if p > threshold then some (row, col) else none))).insertionSort coordLe)

/-- Batch loop of convert_logits_to_predictions: examples skipped by the
continue contribute no entry to answer_coordinates_batch. -/
def convert_logits_to_predictions (batch : List ExampleData) (threshold : ℚ) :
    List (List (ℕ × ℕ)) :=
  batch.filterMap (fun d => decodeExample d threshold)

/-- Fold of set-valued dict additions, used to restate the nested
accumulation loops of _add_numeric_relations over a flattened addition
sequence. -/
def applyAdds (m : List ((ℕ × ℕ) × List Relation)) (adds : List ((ℕ × ℕ) × Relation)) :
    List ((ℕ × ℕ) × List Relation) :=
  adds.foldl (fun m e => assocAdd m e.1 e.2) m

/-- The flattened sequence of ((column, row), relation) additions
performed by the nested loops of _add_numeric_relations, in loop order. -/
def relAdditions (question_values : List NumericValue) (t : NTable) :
    List ((ℕ × ℕ) × Relation) :=
  question_values.flatMap (fun value =>
    (List.range t.num_columns).flatMap (fun col_index =>
      match _get_numeric_sort_key_fn (columnsToNumericValues t col_index) value with
      | none => []
      | some sort_key_fn =>
        (columnsToNumericValues t col_index).filterMap (fun rv =>
          (get_numeric_relation value rv.2 sort_key_fn).map
            (fun rel => ((col_index, rv.1), rel)))))

instance {e a : Type} [DecidableEq e] [DecidableEq a] : DecidableEq (Except e a) := fun x y =>
  match x, y with
  | .ok v, .ok w =>
    if h : v = w then isTrue (by rw [h]) else isFalse (fun hc => h (Except.ok.inj hc))
  | .error v, .error w =>
    if h : v = w then isTrue (by rw [h]) else isFalse (fun hc => h (Except.error.inj hc))
  | .ok _, .error _ => isFalse (fun hc => Except.noConfusion hc)
  | .error _, .ok _ => isFalse (fun hc => Except.noConfusion hc)

/-- Concrete parsed table used by witnesses: two data rows, a text
column (no values) and a numeric column holding 30 and 29. -/
def c4Table : NTable :=
  { num_columns := 2,
    cells := [[[], [{ float_value := some 30, date := none }]],
              [[], [{ float_value := some 29, date := none }]]] }

/-- Column ids of the serialized witness example (CLS, question, SEP, two
header cells, then data cells; the cell of row 2 column 1 has two
tokens). -/
def c4ci : List ℕ := [0, 0, 0, 1, 2, 1, 2, 1, 1, 2]

/-- Row ids of the serialized witness example. -/
def c4ri : List ℕ := [0, 0, 0, 0, 0, 1, 1, 2, 2, 2]

/-- The inclusion predicate of _get_table_values, separated from the
emitted value. -/
def tableTokenIncluded (t : TokenizedTable) (num_columns num_rows num_tokens : ℕ)
    (tc : TokenCoordinates) : Bool :=
  decide (tc.row_index ≤ num_rows) && decide (tc.column_index < num_columns) &&
    decide (wordBeginIndex (cellAt t tc) tc.token_index < (num_tokens : ℤ))

/-- The concrete tokenized table refuting the header-exclusion part of
claim C1: one header cell token and one data cell token. -/
def c1Table : TokenizedTable :=
  { rows := [[["h"]], [["a"]]], selected_tokens := mkTokenCoordinates [[["h"]], [["a"]]] }

/-- The tokenized table with no tokens at all, on which the stated form
of claim C6 fails. -/
def emptyTokTable : TokenizedTable :=
  { rows := [], selected_tokens := [] }

/-- A batch element carrying an empty table: every token has column id
and row id 0. -/
def c3d : ExampleData :=
  { probabilities := [0], segment_ids := [0], row_ids := [0], column_ids := [0] }

/-- Concrete feature bundle produced by _to_features on a one-token
question with no table, at model max length 4. -/
def c2fb : Features :=
  { input_ids := [5, 0, 0, 0], attention_mask := [1, 0, 0, 0],
    segment_ids := [0, 0, 0, 0], column_ids := [0, 0, 0, 0], row_ids := [0, 0, 0, 0],
    column_ranks := [0, 0, 0, 0], inv_column_ranks := [0, 0, 0, 0],
    numeric_relations := [0, 0, 0, 0],
    numeric_values := [none, none, none, none],
    numeric_values_scale := [1, 1, 1, 1] }

/-! General lemmas about the imperative-update helpers. -/

theorem length_setIdxs {α : Type} (l : List α) (idxs : List ℕ) (v : α) :
    (setIdxs l idxs v).length = l.length := by
  induction idxs generalizing l with
  | nil => rfl
  | cons i rest ih =>
    simp [setIdxs] at ih ⊢
    rw [ih, List.length_set]

theorem getD_setIdxs_of_not_mem {α : Type} (l : List α) (idxs : List ℕ) (v : α)
    (i : ℕ) (d : α) (h : i ∉ idxs) :
    (setIdxs l idxs v).getD i d = l.getD i d := by
  induction idxs generalizing l with
  | nil => rfl
  | cons j rest ih =>
    have hj : j ≠ i := fun e => h (e ▸ List.mem_cons_self j rest)
    have hrest : i ∉ rest := fun e => h (List.mem_cons_of_mem j e)
    simp only [setIdxs, List.foldl_cons] at ih ⊢
    rw [ih _ hrest, List.getD_eq_getElem?_getD, List.getD_eq_getElem?_getD,
      List.getElem?_set_ne hj]

theorem setIdxs_cons {α : Type} (l : List α) (j : ℕ) (rest : List ℕ) (v : α) :
    setIdxs l (j :: rest) v = setIdxs (l.set j v) rest v := rfl

theorem getD_setIdxs_of_mem {α : Type} (l : List α) (idxs : List ℕ) (v : α)
    (i : ℕ) (d : α) (h : i ∈ idxs) (hlen : i < l.length) :
    (setIdxs l idxs v).getD i d = v := by
  induction idxs generalizing l with
  | nil => cases h
  | cons j rest ih =>
    rw [setIdxs_cons]
    by_cases hr : i ∈ rest
    · exact ih _ hr (by rw [List.length_set]; exact hlen)
    · have hij : j = i := by
        rcases List.mem_cons.mp h with h1 | h1
        · exact h1.symm
        · exact absurd h1 hr
      rw [getD_setIdxs_of_not_mem _ _ _ _ _ hr, List.getD_eq_getElem?_getD,
        hij, List.getElem?_set_self hlen]
      rfl

theorem mem_get_cell_token_indexes (column_ids row_ids : List ℕ) (c r i : ℕ) :
    i ∈ _get_cell_token_indexes column_ids row_ids c r ↔
      i < column_ids.length ∧ column_ids.getD i 0 = c + 1 ∧ row_ids.getD i 0 = r + 1 := by
  simp [_get_cell_token_indexes, List.mem_filter, List.mem_range, and_assoc]

theorem length_pad_to_seq_length (m : ℕ) (l : List ℕ) :
    (_pad_to_seq_length m l).length = m := by
  simp [_pad_to_seq_length]
  omega

theorem getD_pad_to_seq_length_of_le (m : ℕ) (l : List ℕ) (i : ℕ) (h : l.length ≤ i) :
    (_pad_to_seq_length m l).getD i 0 = 0 := by
  rw [_pad_to_seq_length, List.getD_eq_getElem?_getD, List.getElem?_append_right
    (by simp; omega)]
  rcases Nat.lt_or_ge i m with hi | hi
  · rw [List.getElem?_replicate, if_pos (by simp; omega)]
    rfl
  · rw [List.getElem?_eq_none (by simp; omega)]
    rfl

theorem getD_pad_to_seq_length_of_lt (m : ℕ) (l : List ℕ) (i : ℕ) (h : i < l.length)
    (hm : i < m) : (_pad_to_seq_length m l).getD i 0 = l.getD i 0 := by
  rw [_pad_to_seq_length, List.getD_eq_getElem?_getD, List.getElem?_append_left
    (by simp; omega), List.getElem?_take, if_pos hm,
    List.getD_eq_getElem?_getD]

theorem filterMap_if_eq_filter_map {α β : Type} (p : α → Bool) (f : α → β) (l : List α) :
    l.filterMap (fun a => if p a then some (f a) else none) = (l.filter p).map f := by
  induction l with
  | nil => rfl
  | cons a rest ih =>
    by_cases h : p a
    · simp [List.filterMap_cons, List.filter_cons, h, ih]
    · simp [List.filterMap_cons, List.filter_cons, h, ih]

theorem tableValueAt_eq_ite (t : TokenizedTable) (nc nr nt : ℕ) (tc : TokenCoordinates) :
    tableValueAt t nc nr nt tc =
      if tableTokenIncluded t nc nr nt tc then
        some { token := (cellAt t tc).getD tc.token_index "",
               column_id := tc.column_index + 1, row_id := tc.row_index }
      else none := by
  have e1 : (tc.row_index ≥ nr + 1) ↔ ¬ (tc.row_index ≤ nr) := by omega
  have e2 : (tc.column_index ≥ nc) ↔ ¬ (tc.column_index < nc) := by omega
  have e3 : (wordBeginIndex (cellAt t tc) tc.token_index ≥ (nt : ℤ)) ↔
      ¬ (wordBeginIndex (cellAt t tc) tc.token_index < (nt : ℤ)) := by omega
  unfold tableValueAt tableTokenIncluded
  simp only [e1, e2, e3]
  by_cases h1 : tc.row_index ≤ nr <;> by_cases h2 : tc.column_index < nc <;>
    by_cases h3 : wordBeginIndex (cellAt t tc) tc.token_index < (nt : ℤ) <;>
    simp [h1, h2, h3]

theorem get_table_values_eq (t : TokenizedTable) (nc nr nt : ℕ) :
    _get_table_values t nc nr nt =
      (t.selected_tokens.filter (tableTokenIncluded t nc nr nt)).map (fun tc =>
        { token := (cellAt t tc).getD tc.token_index "",
          column_id := tc.column_index + 1, row_id := tc.row_index }) := by
  unfold _get_table_values
  rw [show tableValueAt t nc nr nt = fun tc =>
    if tableTokenIncluded t nc nr nt tc then
      some ({ token := (cellAt t tc).getD tc.token_index "",
              column_id := tc.column_index + 1, row_id := tc.row_index } : TableValue)
    else none from funext (tableValueAt_eq_ite t nc nr nt)]
  exact filterMap_if_eq_filter_map _ _ _

theorem map_one_eq_replicate {α : Type} (l : List α) :
    l.map (fun _ => (1 : ℕ)) = List.replicate l.length 1 := by
  induction l with
  | nil => rfl
  | cons a rest ih => simp [ih, List.replicate_succ]

/-- Claim C1 (amended). For every question and tokenized table, _serialize
emits the CLS token tagged (segment 0, column 0, row 0), each question
token tagged (0,0,0), a SEP token tagged (0,0,0), and then exactly the
table tokens honoring the row, column and whole-word token caps, each
tagged with segment 1, its 1-based column id, and a row id equal to its
row index — 0 for header-row tokens, which ARE emitted as table content,
and the 1-based data row id for data rows. -/
theorem C1_serialize_emission (cls_token sep_token : String) (question_tokens : List String)
    (t : TokenizedTable) (nc nr nt : ℕ) :
    (_serialize cls_token sep_token question_tokens t nc nr nt).tokens =
        cls_token :: question_tokens ++ [sep_token] ++
          (t.selected_tokens.filter (tableTokenIncluded t nc nr nt)).map
            (fun tc => (cellAt t tc).getD tc.token_index "") ∧
    (_serialize cls_token sep_token question_tokens t nc nr nt).segment_ids =
        List.replicate (question_tokens.length + 2) 0 ++
          List.replicate (t.selected_tokens.filter (tableTokenIncluded t nc nr nt)).length 1 ∧
    (_serialize cls_token sep_token question_tokens t nc nr nt).column_ids =
        List.replicate (question_tokens.length + 2) 0 ++
          (t.selected_tokens.filter (tableTokenIncluded t nc nr nt)).map
            (fun tc => tc.column_index + 1) ∧
    (_serialize cls_token sep_token question_tokens t nc nr nt).row_ids =
        List.replicate (question_tokens.length + 2) 0 ++
          (t.selected_tokens.filter (tableTokenIncluded t nc nr nt)).map
            (fun tc => tc.row_index) := by
  have hrep : ∀ x : List ℕ, List.replicate (1 + question_tokens.length) 0 ++ [0] ++ x =
      List.replicate (question_tokens.length + 2) 0 ++ x := by
    intro x
    rw [show [(0 : ℕ)] = List.replicate 1 0 from rfl, ← List.replicate_add,
      show 1 + question_tokens.length + 1 = question_tokens.length + 2 by omega]
  refine ⟨?_, ?_, ?_, ?_⟩ <;>
    simp only [_serialize, _serialize_text, get_table_values_eq, List.map_map, hrep] <;>
    simp [Function.comp_def, map_one_eq_replicate]

/-- Claim C1, as stated, is false on the code: serializing the concrete
table c1Table (one column, one data row, cap 1) emits the header token
"h" as table content with segment id 1 and row id 0, so it is not the
case that only data rows (row id at least 1) appear as table content. -/
theorem C1_counterexample :
    ¬ (∀ i, (_serialize "[CLS]" "[SEP]" ["q"] c1Table 1 1 1).segment_ids.getD i 0 = 1 →
        1 ≤ (_serialize "[CLS]" "[SEP]" ["q"] c1Table 1 1 1).row_ids.getD i 0) := by
  intro h
  exact absurd (h 3 (by decide)) (by decide)

/-! Budget fitter lemmas. -/

theorem length_filter_mono {α : Type} (p q : α → Bool) (l : List α)
    (h : ∀ a ∈ l, p a = true → q a = true) :
    (l.filter p).length ≤ (l.filter q).length := by
  induction l with
  | nil => exact Nat.le_refl _
  | cons a rest ih =>
    have ih' := ih (fun b hb => h b (List.mem_cons_of_mem a hb))
    by_cases hp : p a
    · rw [List.filter_cons_of_pos hp, List.filter_cons_of_pos (h a (List.mem_cons_self a rest) hp)]
      simpa using ih'
    · rw [List.filter_cons_of_neg hp]
      by_cases hq : q a
      · rw [List.filter_cons_of_pos hq]
        exact ih'.trans (by simp)
      · rw [List.filter_cons_of_neg hq]
        exact ih'

theorem get_table_cost_mono (t : TokenizedTable) (nc nr : ℕ) {k k' : ℕ} (h : k ≤ k') :
    _get_table_cost t nc nr k ≤ _get_table_cost t nc nr k' := by
  unfold _get_table_cost
  rw [get_table_values_eq, get_table_values_eq, List.length_map, List.length_map]
  refine length_filter_mono _ _ _ (fun tc _ hp => ?_)
  unfold tableTokenIncluded at hp ⊢
  simp only [Bool.and_eq_true, decide_eq_true_eq] at hp ⊢
  exact ⟨hp.1, lt_of_lt_of_le hp.2 (by exact_mod_cast h)⟩

theorem find?_range_first {p : ℕ → Bool} {n k : ℕ}
    (h : (List.range n).find? p = some k) :
    p k = true ∧ k < n ∧ ∀ j < k, p j = false := by
  induction n with
  | zero => simp at h
  | succ n ih =>
    rw [List.range_succ, List.find?_append] at h
    cases hfn : (List.range n).find? p with
    | some k0 =>
      rw [hfn] at h
      simp only [Option.or] at h
      cases h
      have := ih hfn
      exact ⟨this.1, Nat.lt_succ_of_lt this.2.1, this.2.2⟩
    | none =>
      rw [hfn] at h
      simp only [Option.or] at h
      by_cases hpn : p n
      · rw [List.find?_cons_of_pos _ hpn] at h
        cases h
        refine ⟨hpn, Nat.lt_succ_self _, fun j hj => ?_⟩
        have := List.find?_eq_none.mp hfn j (List.mem_range.mpr hj)
        simpa using this
      · rw [List.find?_cons_of_neg _ hpn] at h
        simp at h

theorem numTokensScan_le (b : ℤ) (t : TokenizedTable) (nc nr m : ℕ) :
    numTokensScan b t nc nr m ≤ m := by
  unfold numTokensScan
  cases hf : (List.range (m + 1)).find?
      (fun k => decide ((_get_table_cost t nc nr (k + 1) : ℤ) > b)) with
  | none => exact Nat.le_refl _
  | some k =>
    have := List.mem_range.mp (List.mem_of_find?_eq_some hf)
    simpa using Nat.lt_succ_iff.mp this

theorem numTokensScan_lt_iff (b : ℤ) (t : TokenizedTable) (nc nr m : ℕ) :
    numTokensScan b t nc nr m < m ↔ ∃ j < m, (_get_table_cost t nc nr (j + 1) : ℤ) > b := by
  unfold numTokensScan
  constructor
  · intro h
    cases hf : (List.range (m + 1)).find?
        (fun k => decide ((_get_table_cost t nc nr (k + 1) : ℤ) > b)) with
    | none =>
      rw [hf] at h
      simp at h
    | some k =>
      rw [hf] at h
      simp only [Option.getD_some] at h
      have hk := find?_range_first hf
      exact ⟨k, h, by simpa using hk.1⟩
  · rintro ⟨j, hj, hcost⟩
    cases hf : (List.range (m + 1)).find?
        (fun k => decide ((_get_table_cost t nc nr (k + 1) : ℤ) > b)) with
    | none =>
      have := List.find?_eq_none.mp hf j (List.mem_range.mpr (Nat.lt_succ_of_lt hj))
      simp at this
      omega
    | some k =>
      have hk := find?_range_first hf
      simp only [Option.getD_some]
      rcases Nat.lt_or_ge k j.succ with h1 | h1
      · omega
      · have := hk.2.2 j h1
        simp at this
        omega

theorem numTokensScan_mono (t : TokenizedTable) (nc nr m : ℕ) {b b' : ℤ} (h : b ≤ b') :
    numTokensScan b t nc nr m ≤ numTokensScan b' t nc nr m := by
  have himp : ∀ j : ℕ, (_get_table_cost t nc nr (j + 1) : ℤ) > b' →
      (_get_table_cost t nc nr (j + 1) : ℤ) > b := fun j hj => lt_of_le_of_lt h hj
  cases hf' : (List.range (m + 1)).find?
      (fun k => decide ((_get_table_cost t nc nr (k + 1) : ℤ) > b')) with
  | none =>
    have : numTokensScan b' t nc nr m = m := by
      unfold numTokensScan
      rw [hf']
      rfl
    rw [this]
    exact numTokensScan_le b t nc nr m
  | some k' =>
    have hk' := find?_range_first hf'
    have hs' : numTokensScan b' t nc nr m = k' := by
      unfold numTokensScan
      rw [hf']
      rfl
    rw [hs']
    cases hf : (List.range (m + 1)).find?
        (fun k => decide ((_get_table_cost t nc nr (k + 1) : ℤ) > b)) with
    | none =>
      exfalso
      have := List.find?_eq_none.mp hf k' (List.mem_of_find?_eq_some hf')
      simp at this hk'
      exact absurd (himp k' hk'.1) (by omega)
    | some k =>
      have hk := find?_range_first hf
      have hs : numTokensScan b t nc nr m = k := by
        unfold numTokensScan
        rw [hf]
        rfl
      rw [hs]
      by_contra hgt
      push_neg at hgt
      have := hk.2.2 k' hgt
      simp at this hk'
      exact absurd (himp k' hk'.1) (by omega)

/-- Claim C7. For a fixed question and tokenized table, increasing the
model max length never decreases the fitted per-cell token cap returned
by _get_max_num_tokens, and never turns a successful fit into a failure. -/
theorem C7_budget_fitter_monotone (mml mml' : ℕ) (hm : mml ≤ mml') (trim : ℤ)
    (mc mr : ℕ) (q : List String) (t : TokenizedTable) (nc nr k : ℕ)
    (h : _get_max_num_tokens mml trim mc mr q t nc nr = some k) :
    ∃ k', _get_max_num_tokens mml' trim mc mr q t nc nr = some k' ∧ k ≤ k' := by
  have hb : _get_token_budget mml q ≤ _get_token_budget mml' q := by
    unfold _get_token_budget
    omega
  set m := cappedMaxNumTokens trim mc mr t with hmdef
  set s := numTokensScan (_get_token_budget mml q) t nc nr m with hsdef
  set s' := numTokensScan (_get_token_budget mml' q) t nc nr m with hsdef'
  have hss : s ≤ s' := numTokensScan_mono t nc nr m hb
  have hsm : s ≤ m := numTokensScan_le _ t nc nr m
  have hsm' : s' ≤ m := numTokensScan_le _ t nc nr m
  unfold _get_max_num_tokens at h ⊢
  simp only [← hmdef, ← hsdef, ← hsdef'] at h ⊢
  by_cases h1 : s < m
  · rw [if_pos h1] at h
    by_cases h2 : 0 ≤ trim
    · rw [if_pos h2] at h
      cases h
    · rw [if_neg h2] at h
      by_cases h3 : s = 0
      · rw [if_pos h3] at h
        cases h
      · rw [if_neg h3] at h
        have hk : s = k := Option.some.inj h
        by_cases h1' : s' < m
        · rw [if_pos h1', if_neg h2, if_neg (by omega)]
          exact ⟨s', rfl, by omega⟩
        · rw [if_neg h1']
          exact ⟨s', rfl, by omega⟩
  · rw [if_neg h1] at h
    have hk : s = k := Option.some.inj h
    have hsm2 : s = m := by omega
    have hs'm : s' = m := by omega
    rw [if_neg (by omega)]
    exact ⟨s', rfl, by omega⟩

/-- Witness for claim C7 at a concrete input: growing the model max
length from 5 to 9 keeps the two-row table fitting and does not shrink
the cap. -/
theorem C7_budget_fitter_monotone_witness :
    (5 : ℕ) ≤ 9 ∧
    _get_max_num_tokens 5 (-1) 512 512 ["q"] c1Table 1 1 = some 1 ∧
    ∃ k', _get_max_num_tokens 9 (-1) 512 512 ["q"] c1Table 1 1 = some k' ∧ 1 ≤ k' :=
  ⟨by decide, by decide,
    C7_budget_fitter_monotone 5 9 (by decide) (-1) 512 512 ["q"] c1Table 1 1 1 (by decide)⟩

/-- Claim C6 (amended). Fitting policy of the budget fitter, for any
configuration with a positive capped per-cell token bound: (a) with a
configured (nonnegative) cell_trim_length, when the content capped at
that bound exceeds the budget the fit fails outright — no dynamic
narrowing below the cap is attempted; (b) with no cap configured, when
already the probe at cap 0 exceeds the budget the fit fails; (c) with
drop_rows_to_fit enabled, the row count is decremented and the search
restarted until a fit succeeds, and the call fails exactly when every row
count down to zero fails. (The positivity proviso is forced by the code:
with a capped bound of 0 — a table with no tokens under the cap — the
scan returns cap 0 as a success even on a negative budget.) -/
theorem C6_fit_policy (mml : ℕ) (trim : ℤ) (mc mr : ℕ) (q : List String)
    (t : TokenizedTable) (nc : ℕ) :
    (∀ nr, 0 ≤ trim → 0 < cappedMaxNumTokens trim mc mr t →
      (_get_table_cost t nc nr (cappedMaxNumTokens trim mc mr t) : ℤ) > _get_token_budget mml q →
      _get_max_num_tokens mml trim mc mr q t nc nr = none) ∧
    (∀ nr, trim < 0 → 0 < cappedMaxNumTokens trim mc mr t →
      (_get_table_cost t nc nr 1 : ℤ) > _get_token_budget mml q →
      _get_max_num_tokens mml trim mc mr q t nc nr = none) ∧
    (∀ nr, _to_trimmed_features_fit mml trim mc mr true q t nc nr = none ↔
      ∀ r ≤ nr, _get_max_num_tokens mml trim mc mr q t nc r = none) ∧
    (∀ nr r nt, _to_trimmed_features_fit mml trim mc mr true q t nc nr = some (r, nt) →
      _get_max_num_tokens mml trim mc mr q t nc r = some nt ∧ r ≤ nr ∧
      ∀ r', r < r' → r' ≤ nr → _get_max_num_tokens mml trim mc mr q t nc r' = none) := by
  refine ⟨?_, ?_, ?_, ?_⟩
  · intro nr htrim hpos hcost
    set m := cappedMaxNumTokens trim mc mr t with hmdef
    have hscan : numTokensScan (_get_token_budget mml q) t nc nr m < m := by
      rw [numTokensScan_lt_iff]
      refine ⟨m - 1, by omega, ?_⟩
      rw [show m - 1 + 1 = m by omega]
      exact hcost
    unfold _get_max_num_tokens
    simp only [← hmdef]
    rw [if_pos hscan, if_pos htrim]
  · intro nr htrim hpos hcost
    set m := cappedMaxNumTokens trim mc mr t with hmdef
    have hscan0 : numTokensScan (_get_token_budget mml q) t nc nr m = 0 := by
      unfold numTokensScan
      rw [List.range_succ_eq_map, List.find?_cons_of_pos _ (by simpa using hcost)]
      rfl
    unfold _get_max_num_tokens
    simp only [← hmdef]
    rw [hscan0, if_pos hpos, if_neg (by omega), if_pos rfl]
  · intro nr
    induction nr with
    | zero =>
      simp only [_to_trimmed_features_fit]
      cases h : _get_max_num_tokens mml trim mc mr q t nc 0 with
      | some nt => simp [h, Nat.le_zero]
      | none => simp [h, Nat.le_zero]
    | succ n ih =>
      simp only [_to_trimmed_features_fit]
      cases h : _get_max_num_tokens mml trim mc mr q t nc (n + 1) with
      | some nt =>
        simp only [if_true]
        constructor
        · intro hfalse
          cases hfalse
        · intro hall
          rw [hall (n + 1) (Nat.le_refl _)] at h
          cases h
      | none =>
        simp only [if_true]
        rw [ih]
        constructor
        · intro hall r hr
          rcases Nat.lt_or_ge r (n + 1) with h1 | h1
          · exact hall r (Nat.lt_succ_iff.mp h1)
          · rw [show r = n + 1 by omega]
            exact h
        · intro hall r hr
          exact hall r (Nat.le_succ_of_le hr)
  · intro nr
    induction nr with
    | zero =>
      intro r nt hfit
      simp only [_to_trimmed_features_fit] at hfit
      cases h : _get_max_num_tokens mml trim mc mr q t nc 0 with
      | some nt0 =>
        rw [h] at hfit
        cases hfit
        exact ⟨h, Nat.le_refl _, fun r' hr1 hr2 => by omega⟩
      | none =>
        rw [h] at hfit
        cases hfit
    | succ n ih =>
      intro r nt hfit
      simp only [_to_trimmed_features_fit] at hfit
      cases h : _get_max_num_tokens mml trim mc mr q t nc (n + 1) with
      | some nt0 =>
        rw [h] at hfit
        cases hfit
        exact ⟨h, Nat.le_refl _, fun r' hr1 hr2 => by omega⟩
      | none =>
        rw [h] at hfit
        simp only [if_true] at hfit
        have := ih r nt hfit
        refine ⟨this.1, Nat.le_succ_of_le this.2.1, fun r' hr1 hr2 => ?_⟩
        rcases Nat.lt_or_ge r' (n + 1) with h1 | h1
        · exact this.2.2 r' hr1 (Nat.lt_succ_iff.mp h1)
        · rw [show r' = n + 1 by omega]
          exact h

/-- Witness for claim C6 at a concrete input: with no configured cap, a
one-column table whose probe at cap 0 exceeds the (negative) budget is
rejected. -/
theorem C6_fit_policy_witness :
    ((-1 : ℤ) < 0) ∧ 0 < cappedMaxNumTokens (-1) 512 512 c1Table ∧
    (_get_table_cost c1Table 1 1 1 : ℤ) > _get_token_budget 2 ["q"] ∧
    _get_max_num_tokens 2 (-1) 512 512 ["q"] c1Table 1 1 = none :=
  ⟨by decide, by decide, by decide,
    (C6_fit_policy 2 (-1) 512 512 ["q"] c1Table 1).2.1 1 (by decide) (by decide) (by decide)⟩

/-- Claim C6, as stated, is false on the code at a concrete input: with
no cap configured (cell_trim_length -1) and a one-token question against
model max length 2, the budget is -1, so even a per-cell token cap of 0
exceeds the budget; the claim then requires the fit to fail, but on a
table with no tokens _get_max_num_tokens succeeds with cap 0. -/
theorem C6_counterexample :
    ((-1 : ℤ) < 0) ∧
    (_get_table_cost emptyTokTable 1 0 1 : ℤ) > _get_token_budget 2 ["q"] ∧
    _get_max_num_tokens 2 (-1) 512 512 ["q"] emptyTokTable 1 0 = some 0 :=
  ⟨by decide, by decide, by decide⟩

/-! Sort-key unifier lemmas. -/

theorem mapM_get_value_type_eq (vs : List NumericValue)
    (h : ∀ v ∈ vs, (_get_value_type v).isSome) :
    vs.mapM _get_value_type = some (vs.map (fun v => (_get_value_type v).getD .number)) := by
  induction vs with
  | nil => rfl
  | cons v rest ih =>
    rcases Option.isSome_iff_exists.mp (h v (List.mem_cons_self v rest)) with ⟨a, ha⟩
    rw [List.mapM_cons, ha, ih (fun w hw => h w (List.mem_cons_of_mem v hw))]
    simp [ha]

theorem dedup_all_eq {α : Type} [DecidableEq α] (l : List α) (a : α) (hne : l ≠ [])
    (h : ∀ b ∈ l, b = a) : l.dedup = [a] := by
  induction l with
  | nil => exact absurd rfl hne
  | cons x tl ih =>
    have hx : x = a := h x (List.mem_cons_self x tl)
    cases tl with
    | nil => simp [hx]
    | cons y tl2 =>
      have hy : y = a := h y (List.mem_cons_of_mem x (List.mem_cons_self y tl2))
      have hmem : x ∈ y :: tl2 := by
        rw [hx, hy]
        exact List.mem_cons_self a tl2
      rw [List.dedup_cons_of_mem hmem]
      exact ih (by simp) (fun b hb => h b (List.mem_cons_of_mem x hb))

theorem get_numeric_sort_key_fn_eq (vs : List NumericValue) (types : List ValueType)
    (h : vs.mapM _get_value_type = some types) :
    get_numeric_sort_key_fn vs = sortKeyOfTypes vs types := by
  unfold get_numeric_sort_key_fn
  rw [h]

theorem sortKeyOfTypes_of_mixed (vs : List NumericValue) (types : List ValueType)
    (hn : ValueType.number ∈ types.dedup) (hd : ValueType.date ∈ types.dedup) :
    sortKeyOfTypes vs types = .error .noCommonType := by
  unfold sortKeyOfTypes
  split
  · rename_i heq
    rw [heq] at hd
    simp at hd
  · rename_i heq
    rw [heq] at hn
    simp at hn
  · rfl

theorem sortKeyOfTypes_of_date (vs : List NumericValue) (types : List ValueType)
    (h : types.dedup = [ValueType.date]) :
    sortKeyOfTypes vs types =
      (if ((List.range 3).filter
            (fun i => vs.all (fun v => ((v.date.getD ⟨none, none, none⟩).field i).isSome))).isEmpty
        then .error .noCommonFields
        else .ok (.dateKey ((List.range 3).filter
          (fun i => vs.all (fun v => ((v.date.getD ⟨none, none, none⟩).field i).isSome))))) := by
  unfold sortKeyOfTypes
  rw [h]

/-- Claim C8. The unifier get_numeric_sort_key_fn: (1) fails with the
no-common-type condition whenever the (well-typed) values mix numbers and
dates; (2) fails with the no-common-fields condition when all values are
dates but no single date field is populated in every value; (3) otherwise
for dates it returns a key that extracts exactly the field indexes
populated in every value, listed in the fixed (year, month, day) order. -/
theorem C8_sort_key_unifier (vs : List NumericValue) :
    ((∀ v ∈ vs, (_get_value_type v).isSome) →
      (∃ v ∈ vs, _get_value_type v = some .number) →
      (∃ v ∈ vs, _get_value_type v = some .date) →
      get_numeric_sort_key_fn vs = .error .noCommonType) ∧
    ((∀ v ∈ vs, _get_value_type v = some .date) → vs ≠ [] →
      (∀ i, i < 3 → ∃ v ∈ vs, ((v.date.getD ⟨none, none, none⟩).field i) = none) →
      get_numeric_sort_key_fn vs = .error .noCommonFields) ∧
    ((∀ v ∈ vs, _get_value_type v = some .date) → vs ≠ [] →
      (∃ i, i < 3 ∧ ∀ v ∈ vs, ((v.date.getD ⟨none, none, none⟩).field i).isSome) →
      ∃ idxs, get_numeric_sort_key_fn vs = .ok (.dateKey idxs) ∧
        (∀ i, i ∈ idxs ↔ i < 3 ∧ ∀ v ∈ vs, ((v.date.getD ⟨none, none, none⟩).field i).isSome) ∧
        List.Sorted (· < ·) idxs ∧
        (∀ v, applySortKey (.dateKey idxs) v =
          idxs.map (fun i => ((v.date.getD ⟨none, none, none⟩).field i).getD 0))) := by
  refine ⟨?_, ?_, ?_⟩
  · rintro hwf ⟨v1, hv1, ht1⟩ ⟨v2, hv2, ht2⟩
    rw [get_numeric_sort_key_fn_eq vs (vs.map (fun v => (_get_value_type v).getD .number))
      (mapM_get_value_type_eq vs hwf)]
    refine sortKeyOfTypes_of_mixed vs _ ?_ ?_
    · rw [List.mem_dedup, List.mem_map]
      exact ⟨v1, hv1, by rw [ht1]; rfl⟩
    · rw [List.mem_dedup, List.mem_map]
      exact ⟨v2, hv2, by rw [ht2]; rfl⟩
  · intro hwf hne hnofield
    rw [get_numeric_sort_key_fn_eq vs (vs.map (fun v => (_get_value_type v).getD .number))
      (mapM_get_value_type_eq vs (fun v hv => by rw [hwf v hv]; rfl))]
    rw [sortKeyOfTypes_of_date vs _ (dedup_all_eq
      (vs.map (fun v => (_get_value_type v).getD .number)) ValueType.date
      (by simpa using hne)
      (by
        rintro b hb
        rw [List.mem_map] at hb
        rcases hb with ⟨v, hv, rfl⟩
        rw [hwf v hv]
        rfl))]
    have hfilter : (List.range 3).filter
        (fun i => vs.all (fun v => ((v.date.getD ⟨none, none, none⟩).field i).isSome)) = [] := by
      rw [List.filter_eq_nil_iff]
      intro i hi
      rcases hnofield i (List.mem_range.mp hi) with ⟨v, hv, hnone⟩
      intro hcontra
      have := List.all_eq_true.mp hcontra v hv
      rw [hnone] at this
      cases this
    simp [hfilter]
  · intro hwf hne hsome
    rw [get_numeric_sort_key_fn_eq vs (vs.map (fun v => (_get_value_type v).getD .number))
      (mapM_get_value_type_eq vs (fun v hv => by rw [hwf v hv]; rfl))]
    rw [sortKeyOfTypes_of_date vs _ (dedup_all_eq
      (vs.map (fun v => (_get_value_type v).getD .number)) ValueType.date
      (by simpa using hne)
      (by
        rintro b hb
        rw [List.mem_map] at hb
        rcases hb with ⟨v, hv, rfl⟩
        rw [hwf v hv]
        rfl))]
    have hfne : ((List.range 3).filter
        (fun i => vs.all (fun v => ((v.date.getD ⟨none, none, none⟩).field i).isSome))).isEmpty = false := by
      rcases hsome with ⟨i, hi3, hi⟩
      rw [Bool.eq_false_iff]
      intro habs
      rw [List.isEmpty_iff, List.filter_eq_nil_iff] at habs
      refine habs i (List.mem_range.mpr hi3) ?_
      simp only [List.all_eq_true, decide_eq_true_eq]
      intro v hv
      simpa using hi v hv
    rw [if_neg (by rw [hfne]; exact Bool.false_ne_true)]
    refine ⟨_, rfl, ?_, ?_, fun v => rfl⟩
    · intro i
      rw [List.mem_filter, List.mem_range]
      constructor
      · rintro ⟨h3, hi⟩
        have := List.all_eq_true.mp hi
        exact ⟨h3, fun v hv => by simpa using this v hv⟩
      · rintro ⟨h3, hi⟩
        refine ⟨h3, ?_⟩
        rw [List.all_eq_true]
        intro v hv
        simpa using hi v hv
    · exact List.Pairwise.filter _ (List.pairwise_lt_range 3)

/-- Witness for claim C8 at concrete inputs: 30 (a number) against
August 2007 mixes types; a year-only and a month-only date share no
field; August 2007 against 2010 unifies on the year field. -/
theorem C8_sort_key_unifier_witness :
    get_numeric_sort_key_fn
      [{ float_value := some 30, date := none },
       { float_value := none, date := some { year := some 2007, month := some 8, day := none } }] =
      .error .noCommonType ∧
    get_numeric_sort_key_fn
      [{ float_value := none, date := some { year := some 2010, month := none, day := none } },
       { float_value := none, date := some { year := none, month := some 5, day := none } }] =
      .error .noCommonFields ∧
    (∃ idxs, get_numeric_sort_key_fn
      [{ float_value := none, date := some { year := some 2007, month := some 8, day := none } },
       { float_value := none, date := some { year := some 2010, month := none, day := none } }] =
        .ok (.dateKey idxs) ∧
      (∀ i, i ∈ idxs ↔ i < 3 ∧ ∀ v ∈
        [({ float_value := none, date := some { year := some 2007, month := some 8, day := none } } : NumericValue),
         { float_value := none, date := some { year := some 2010, month := none, day := none } }],
        ((v.date.getD ⟨none, none, none⟩).field i).isSome) ∧
      List.Sorted (· < ·) idxs ∧
      (∀ v, applySortKey (.dateKey idxs) v =
        idxs.map (fun i => ((v.date.getD ⟨none, none, none⟩).field i).getD 0))) :=
  ⟨(C8_sort_key_unifier _).1 (by decide)
      ⟨{ float_value := some 30, date := none }, by decide, by decide⟩
      ⟨{ float_value := none, date := some { year := some 2007, month := some 8, day := none } },
        by decide, by decide⟩,
   (C8_sort_key_unifier _).2.1 (by decide) (by decide)
      (by
        intro i hi
        interval_cases i
        · exact ⟨{ float_value := none, date := some { year := none, month := some 5, day := none } },
            by decide, by decide⟩
        · exact ⟨{ float_value := none, date := some { year := some 2010, month := none, day := none } },
            by decide, by decide⟩
        · exact ⟨{ float_value := none, date := some { year := some 2010, month := none, day := none } },
            by decide, by decide⟩),
   (C8_sort_key_unifier _).2.2 (by decide) (by decide) ⟨0, by decide, by decide⟩⟩

/-! Answer alignment lemmas. -/

theorem mem_setInsert {α : Type} [DecidableEq α] (l : List α) (x y : α) :
    y ∈ setInsert l x ↔ y ∈ l ∨ y = x := by
  unfold setInsert
  by_cases h : x ∈ l
  · rw [if_pos h]
    constructor
    · exact Or.inl
    · rintro (hy | rfl)
      · exact hy
      · exact h
  · rw [if_neg h]
    simp

theorem nodup_setInsert {α : Type} [DecidableEq α] (l : List α) (x : α) (h : l.Nodup) :
    (setInsert l x).Nodup := by
  unfold setInsert
  by_cases hx : x ∈ l
  · rw [if_pos hx]
    exact h
  · rw [if_neg hx]
    simpa [List.nodup_append] using ⟨h, hx⟩

/-- Behaviour of the _get_all_answer_ids_from_coordinates fold from an
arbitrary start state: final marked array, found set and all set,
characterised pointwise. -/
theorem answer_fold_char (ci ri : List ℕ) (al : List (ℕ × ℕ))
    (ids0 : List ℕ) (f0 a0 : List (ℕ × ℕ)) (hlen : ids0.length = ci.length) :
    (al.foldl (fun acc ans =>
      (setIdxs acc.1 (_get_cell_token_indexes ci ri ans.1 ans.2) 1,
       (if (_get_cell_token_indexes ci ri ans.1 ans.2).isEmpty then acc.2.1
        else setInsert acc.2.1 ans),
       setInsert acc.2.2 ans)) (ids0, f0, a0)).1.length = ci.length ∧
    (∀ i, (al.foldl (fun acc ans =>
      (setIdxs acc.1 (_get_cell_token_indexes ci ri ans.1 ans.2) 1,
       (if (_get_cell_token_indexes ci ri ans.1 ans.2).isEmpty then acc.2.1
        else setInsert acc.2.1 ans),
       setInsert acc.2.2 ans)) (ids0, f0, a0)).1.getD i 0 =
      if ∃ ans ∈ al, i ∈ _get_cell_token_indexes ci ri ans.1 ans.2 then 1
      else ids0.getD i 0) ∧
    (∀ x, x ∈ (al.foldl (fun acc ans =>
      (setIdxs acc.1 (_get_cell_token_indexes ci ri ans.1 ans.2) 1,
       (if (_get_cell_token_indexes ci ri ans.1 ans.2).isEmpty then acc.2.1
        else setInsert acc.2.1 ans),
       setInsert acc.2.2 ans)) (ids0, f0, a0)).2.1 ↔
      x ∈ f0 ∨ (x ∈ al ∧ _get_cell_token_indexes ci ri x.1 x.2 ≠ [])) ∧
    (∀ x, x ∈ (al.foldl (fun acc ans =>
      (setIdxs acc.1 (_get_cell_token_indexes ci ri ans.1 ans.2) 1,
       (if (_get_cell_token_indexes ci ri ans.1 ans.2).isEmpty then acc.2.1
        else setInsert acc.2.1 ans),
       setInsert acc.2.2 ans)) (ids0, f0, a0)).2.2 ↔ x ∈ a0 ∨ x ∈ al) ∧
    (f0.Nodup → (al.foldl (fun acc ans =>
      (setIdxs acc.1 (_get_cell_token_indexes ci ri ans.1 ans.2) 1,
       (if (_get_cell_token_indexes ci ri ans.1 ans.2).isEmpty then acc.2.1
        else setInsert acc.2.1 ans),
       setInsert acc.2.2 ans)) (ids0, f0, a0)).2.1.Nodup) ∧
    (a0.Nodup → (al.foldl (fun acc ans =>
      (setIdxs acc.1 (_get_cell_token_indexes ci ri ans.1 ans.2) 1,
       (if (_get_cell_token_indexes ci ri ans.1 ans.2).isEmpty then acc.2.1
        else setInsert acc.2.1 ans),
       setInsert acc.2.2 ans)) (ids0, f0, a0)).2.2.Nodup) := by
  induction al generalizing ids0 f0 a0 with
  | nil =>
    refine ⟨hlen, fun i => by simp, fun x => by simp, fun x => by simp, fun h => h, fun h => h⟩
  | cons ans rest ih =>
    have hlen1 : (setIdxs ids0 (_get_cell_token_indexes ci ri ans.1 ans.2) 1).length = ci.length := by
      rw [length_setIdxs]
      exact hlen
    have IH := ih (setIdxs ids0 (_get_cell_token_indexes ci ri ans.1 ans.2) 1)
      (if (_get_cell_token_indexes ci ri ans.1 ans.2).isEmpty then f0 else setInsert f0 ans)
      (setInsert a0 ans) hlen1
    simp only [List.foldl_cons]
    refine ⟨IH.1, ?_, ?_, ?_, ?_, ?_⟩
    · intro i
      rw [IH.2.1 i]
      by_cases hrest : ∃ b ∈ rest, i ∈ _get_cell_token_indexes ci ri b.1 b.2
      · have hcons : ∃ b ∈ ans :: rest, i ∈ _get_cell_token_indexes ci ri b.1 b.2 := by
          rcases hrest with ⟨b, hb, hbi⟩
          exact ⟨b, List.mem_cons_of_mem ans hb, hbi⟩
        rw [if_pos hrest, if_pos hcons]
      · rw [if_neg hrest]
        by_cases hmem : i ∈ _get_cell_token_indexes ci ri ans.1 ans.2
        · have hi : i < ids0.length := by
            rw [hlen]
            exact (mem_get_cell_token_indexes ci ri ans.1 ans.2 i |>.mp hmem).1
          have hcons : ∃ b ∈ ans :: rest, i ∈ _get_cell_token_indexes ci ri b.1 b.2 :=
            ⟨ans, List.mem_cons_self ans rest, hmem⟩
          rw [getD_setIdxs_of_mem ids0 (_get_cell_token_indexes ci ri ans.1 ans.2) 1 i 0 hmem hi,
            if_pos hcons]
        · have hcons : ¬ ∃ b ∈ ans :: rest, i ∈ _get_cell_token_indexes ci ri b.1 b.2 := by
            rintro ⟨b, hb, hbi⟩
            rcases List.mem_cons.mp hb with rfl | hb2
            · exact hmem hbi
            · exact hrest ⟨b, hb2, hbi⟩
          rw [getD_setIdxs_of_not_mem ids0 (_get_cell_token_indexes ci ri ans.1 ans.2) 1 i 0 hmem,
            if_neg hcons]
    · intro x
      rw [IH.2.2.1 x]
      by_cases hempty : (_get_cell_token_indexes ci ri ans.1 ans.2).isEmpty
      · rw [if_pos hempty]
        constructor
        · rintro (hx | ⟨hx, hne⟩)
          · exact Or.inl hx
          · exact Or.inr ⟨List.mem_cons_of_mem ans hx, hne⟩
        · rintro (hx | ⟨hx, hne⟩)
          · exact Or.inl hx
          · rcases List.mem_cons.mp hx with rfl | hx2
            · exact absurd (List.isEmpty_iff.mp hempty) hne
            · exact Or.inr ⟨hx2, hne⟩
      · rw [if_neg hempty]
        rw [show (x ∈ setInsert f0 ans) ↔ _ from mem_setInsert f0 ans x]
        constructor
        · rintro ((hx | rfl) | ⟨hx, hne⟩)
          · exact Or.inl hx
          · refine Or.inr ⟨List.mem_cons_self x rest, ?_⟩
            intro habs
            rw [habs] at hempty
            exact hempty rfl
          · exact Or.inr ⟨List.mem_cons_of_mem ans hx, hne⟩
        · rintro (hx | ⟨hx, hne⟩)
          · exact Or.inl (Or.inl hx)
          · rcases List.mem_cons.mp hx with rfl | hx2
            · exact Or.inl (Or.inr rfl)
            · exact Or.inr ⟨hx2, hne⟩
    · intro x
      rw [IH.2.2.2.1 x, mem_setInsert]
      constructor
      · rintro ((hx | rfl) | hx)
        · exact Or.inl hx
        · exact Or.inr (List.mem_cons_self x rest)
        · exact Or.inr (List.mem_cons_of_mem ans hx)
      · rintro (hx | hx)
        · exact Or.inl (Or.inl hx)
        · rcases List.mem_cons.mp hx with rfl | hx2
          · exact Or.inl (Or.inr rfl)
          · exact Or.inr hx2
    · intro hf
      refine IH.2.2.2.2.1 ?_
      by_cases hempty : (_get_cell_token_indexes ci ri ans.1 ans.2).isEmpty
      · rw [if_pos hempty]
        exact hf
      · rw [if_neg hempty]
        exact nodup_setInsert f0 ans hf
    · intro ha
      exact IH.2.2.2.2.2 (nodup_setInsert a0 ans ha)

theorem nodup_subset_length_eq {α : Type} [DecidableEq α] (l1 l2 : List α)
    (h1 : l1.Nodup) (h2 : l2.Nodup) (hsub : ∀ x ∈ l1, x ∈ l2) (hlen : l2.length ≤ l1.length) :
    ∀ x ∈ l2, x ∈ l1 := by
  have hc1 : l1.toFinset.card = l1.length := List.toFinset_card_of_nodup h1
  have hc2 : l2.toFinset.card = l2.length := List.toFinset_card_of_nodup h2
  have hsubf : l1.toFinset ⊆ l2.toFinset := by
    intro x hx
    rw [List.mem_toFinset] at hx ⊢
    exact hsub x hx
  have : l2.toFinset ⊆ l1.toFinset := by
    refine Finset.subset_iff_eq_of_card_le ?_ |>.mp hsubf ▸ Finset.Subset.refl _
    omega
  intro x hx
  rw [← List.mem_toFinset] at hx ⊢
  exact this hx

theorem nodup_subset_length_le {α : Type} [DecidableEq α] (l1 l2 : List α)
    (h1 : l1.Nodup) (hsub : ∀ x ∈ l1, x ∈ l2) : l1.length ≤ l2.length := by
  have hc1 : l1.toFinset.card = l1.length := List.toFinset_card_of_nodup h1
  have hsubf : l1.toFinset ⊆ l2.toFinset := by
    intro x hx
    rw [List.mem_toFinset] at hx ⊢
    exact hsub x hx
  calc l1.length = l1.toFinset.card := hc1.symm
    _ ≤ l2.toFinset.card := Finset.card_le_card hsubf
    _ ≤ l2.length := List.toFinset_card_le l2

theorem get_all_answer_ids_from_coordinates_eq (ci ri : List ℕ) (al : List (ℕ × ℕ)) :
    _get_all_answer_ids_from_coordinates ci ri al =
      ((al.foldl (fun acc ans =>
          (setIdxs acc.1 (_get_cell_token_indexes ci ri ans.1 ans.2) 1,
           (if (_get_cell_token_indexes ci ri ans.1 ans.2).isEmpty then acc.2.1
            else setInsert acc.2.1 ans),
           setInsert acc.2.2 ans)) (List.replicate ci.length 0, [], [])).1,
       (al.foldl (fun acc ans =>
          (setIdxs acc.1 (_get_cell_token_indexes ci ri ans.1 ans.2) 1,
           (if (_get_cell_token_indexes ci ri ans.1 ans.2).isEmpty then acc.2.1
            else setInsert acc.2.1 ans),
           setInsert acc.2.2 ans)) (List.replicate ci.length 0, [], [])).2.2.length -
       (al.foldl (fun acc ans =>
          (setIdxs acc.1 (_get_cell_token_indexes ci ri ans.1 ans.2) 1,
           (if (_get_cell_token_indexes ci ri ans.1 ans.2).isEmpty then acc.2.1
            else setInsert acc.2.1 ans),
           setInsert acc.2.2 ans)) (List.replicate ci.length 0, [], [])).2.1.length) := rfl

/-- Claim C9. Coordinate-mode answer alignment: _get_answer_ids fails
exactly when some requested (row, column) coordinate names a cell with
zero surviving tokens, and on success the returned label sequence marks
position i with 1 exactly when i is a token of one of the named cells
(coordinates arrive as (row, column) and are swapped to (column, row)). -/
theorem C9_coordinate_alignment (column_ids row_ids : List ℕ)
    (answer_coordinates : List (ℕ × ℕ)) :
    (_get_answer_ids column_ids row_ids answer_coordinates = none ↔
      ∃ coords ∈ answer_coordinates,
        _get_cell_token_indexes column_ids row_ids coords.2 coords.1 = []) ∧
    (∀ ids, _get_answer_ids column_ids row_ids answer_coordinates = some ids →
      ∀ i, (ids.getD i 0 = 1 ↔
        ∃ coords ∈ answer_coordinates,
          i ∈ _get_cell_token_indexes column_ids row_ids coords.2 coords.1)) := by
  set swapped := answer_coordinates.map (fun coords => (coords.2, coords.1)) with hswap
  have char := answer_fold_char column_ids row_ids swapped
    (List.replicate column_ids.length 0) [] [] (by simp)
  set res := swapped.foldl (fun acc ans =>
    (setIdxs acc.1 (_get_cell_token_indexes column_ids row_ids ans.1 ans.2) 1,
     (if (_get_cell_token_indexes column_ids row_ids ans.1 ans.2).isEmpty then acc.2.1
      else setInsert acc.2.1 ans),
     setInsert acc.2.2 ans)) (List.replicate column_ids.length 0, [], []) with hres
  have hfound : ∀ x, x ∈ res.2.1 ↔
      x ∈ swapped ∧ _get_cell_token_indexes column_ids row_ids x.1 x.2 ≠ [] := by
    intro x
    rw [char.2.2.1 x]
    simp
  have hall : ∀ x, x ∈ res.2.2 ↔ x ∈ swapped := by
    intro x
    rw [char.2.2.2.1 x]
    simp
  have hnodup_found : res.2.1.Nodup := char.2.2.2.2.1 List.nodup_nil
  have hnodup_all : res.2.2.Nodup := char.2.2.2.2.2 List.nodup_nil
  have hsub : ∀ x ∈ res.2.1, x ∈ res.2.2 := by
    intro x hx
    rw [hall]
    exact ((hfound x).mp hx).1
  have hle : res.2.1.length ≤ res.2.2.length :=
    nodup_subset_length_le res.2.1 res.2.2 hnodup_found hsub
  have hmissing : res.2.2.length - res.2.1.length = 0 ↔
      ∀ x ∈ swapped, _get_cell_token_indexes column_ids row_ids x.1 x.2 ≠ [] := by
    constructor
    · intro h0 x hx
      have heq : res.2.2.length ≤ res.2.1.length := by omega
      have := nodup_subset_length_eq res.2.1 res.2.2 hnodup_found hnodup_all hsub heq
      have hxall : x ∈ res.2.2 := (hall x).mpr hx
      exact ((hfound x).mp (this x hxall)).2
    · intro hforall
      have hsub2 : ∀ x ∈ res.2.2, x ∈ res.2.1 := by
        intro x hx
        rw [hfound]
        have hxs := (hall x).mp hx
        exact ⟨hxs, hforall x hxs⟩
      have := nodup_subset_length_le res.2.2 res.2.1 hnodup_all hsub2
      omega
  have hswapex : ∀ (P : ℕ × ℕ → Prop), (∃ x ∈ swapped, P x) ↔
      ∃ coords ∈ answer_coordinates, P (coords.2, coords.1) := by
    intro P
    rw [hswap]
    constructor
    · rintro ⟨x, hx, hP⟩
      rw [List.mem_map] at hx
      rcases hx with ⟨coords, hc, rfl⟩
      exact ⟨coords, hc, hP⟩
    · rintro ⟨coords, hc, hP⟩
      exact ⟨(coords.2, coords.1), List.mem_map_of_mem _ hc, hP⟩
  have hget : _get_all_answer_ids column_ids row_ids answer_coordinates =
      (res.1, res.2.2.length - res.2.1.length) := by
    rw [_get_all_answer_ids, get_all_answer_ids_from_coordinates_eq, hres, hswap]
  constructor
  · unfold _get_answer_ids
    rw [hget]
    by_cases h0 : res.2.2.length - res.2.1.length = 0
    · rw [if_neg (by omega)]
      rw [hmissing] at h0
      constructor
      · intro habs
        exact absurd habs (Option.some_ne_none _)
      · rintro ⟨coords, hc, hnil⟩
        exfalso
        refine h0 (coords.2, coords.1) ?_ hnil
        rw [hswap]
        exact List.mem_map_of_mem _ hc
    · rw [if_pos (by omega)]
      constructor
      · intro _
        have hnall : ¬ ∀ x ∈ swapped, _get_cell_token_indexes column_ids row_ids x.1 x.2 ≠ [] := by
          rw [← hmissing]
          exact h0
        push_neg at hnall
        rcases hnall with ⟨x, hx, hnil⟩
        rw [hswap] at hx
        rw [List.mem_map] at hx
        rcases hx with ⟨coords, hc, rfl⟩
        exact ⟨coords, hc, hnil⟩
      · intro _
        rfl
  · intro ids hids i
    unfold _get_answer_ids at hids
    rw [hget] at hids
    by_cases h0 : res.2.2.length - res.2.1.length = 0
    · rw [if_neg (by omega)] at hids
      have hids1 : ids = res.1 := (Option.some.inj hids).symm
      rw [hids1, char.2.1 i]
      by_cases hex : ∃ ans ∈ swapped, i ∈ _get_cell_token_indexes column_ids row_ids ans.1 ans.2
      · rw [if_pos hex]
        simp only [true_iff]
        exact (hswapex (fun x => i ∈ _get_cell_token_indexes column_ids row_ids x.1 x.2)).mp hex
      · rw [if_neg hex]
        have : (List.replicate column_ids.length 0).getD i 0 = 0 := by
          rw [List.getD_eq_getElem?_getD, List.getElem?_replicate]
          by_cases hi : i < column_ids.length
          · rw [if_pos hi]
            rfl
          · rw [if_neg hi]
            rfl
        rw [this]
        simp only [Nat.zero_ne_one, false_iff]
        intro hcontra
        exact hex ((hswapex (fun x => i ∈ _get_cell_token_indexes column_ids row_ids x.1 x.2)).mpr hcontra)
    · rw [if_pos (by omega)] at hids
      cases hids

/-- Witness for claim C9 at a concrete input: for ids naming one cell at
answer coordinate (row 0, column 1) with a single surviving token at
position 2, alignment succeeds and marks exactly that position. -/
theorem C9_coordinate_alignment_witness :
    _get_answer_ids [0, 1, 2, 1, 2] [0, 1, 1, 2, 2] [(0, 1)] = some [0, 0, 1, 0, 0] ∧
    (([0, 0, 1, 0, 0] : List ℕ).getD 2 0 = 1 ↔
      ∃ coords ∈ [((0 : ℕ), (1 : ℕ))],
        2 ∈ _get_cell_token_indexes [0, 1, 2, 1, 2] [0, 1, 1, 2, 2] coords.2 coords.1) :=
  ⟨by decide,
    (C9_coordinate_alignment [0, 1, 2, 1, 2] [0, 1, 1, 2, 2] [(0, 1)]).2
      [0, 0, 1, 0, 0] (by decide) 2⟩

/-! Column rank machinery. -/

theorem mem_dedupFirst_aux {α : Type} [DecidableEq α] :
    ∀ (n : ℕ) (l : List α), l.length ≤ n → ∀ x, (x ∈ dedupFirst l ↔ x ∈ l) := by
  intro n
  induction n with
  | zero =>
    intro l hl x
    rw [Nat.le_zero, List.length_eq_zero] at hl
    subst hl
    simp [dedupFirst]
  | succ n ih =>
    intro l hl x
    cases l with
    | nil => simp [dedupFirst]
    | cons a tl =>
      simp only [dedupFirst]
      have hlen : (tl.filter (fun b => decide (b ≠ a))).length ≤ n :=
        le_trans (List.length_filter_le _ _) (by simpa using hl)
      constructor
      · intro hx
        rcases List.mem_cons.mp hx with rfl | hx2
        · exact List.mem_cons_self _ _
        · have := (ih _ hlen x).mp hx2
          exact List.mem_cons_of_mem a (List.mem_filter.mp this).1
      · intro hx
        rcases List.mem_cons.mp hx with rfl | hx2
        · exact List.mem_cons_self _ _
        · by_cases hxa : x = a
          · rw [hxa]
            exact List.mem_cons_self _ _
          · refine List.mem_cons_of_mem a ((ih _ hlen x).mpr ?_)
            rw [List.mem_filter]
            exact ⟨hx2, by simpa using hxa⟩

theorem mem_dedupFirst {α : Type} [DecidableEq α] (l : List α) (x : α) :
    x ∈ dedupFirst l ↔ x ∈ l :=
  mem_dedupFirst_aux l.length l (Nat.le_refl _) x

theorem nodup_dedupFirst_aux {α : Type} [DecidableEq α] :
    ∀ (n : ℕ) (l : List α), l.length ≤ n → (dedupFirst l).Nodup := by
  intro n
  induction n with
  | zero =>
    intro l hl
    rw [Nat.le_zero, List.length_eq_zero] at hl
    subst hl
    simp [dedupFirst]
  | succ n ih =>
    intro l hl
    cases l with
    | nil => simp [dedupFirst]
    | cons a tl =>
      simp only [dedupFirst]
      have hlen : (tl.filter (fun b => decide (b ≠ a))).length ≤ n :=
        le_trans (List.length_filter_le _ _) (by simpa using hl)
      rw [List.nodup_cons]
      refine ⟨?_, ih _ hlen⟩
      intro habs
      have := (mem_dedupFirst_aux n _ hlen a).mp habs
      have := (List.mem_filter.mp this).2
      simp at this

theorem nodup_dedupFirst {α : Type} [DecidableEq α] (l : List α) :
    (dedupFirst l).Nodup :=
  nodup_dedupFirst_aux l.length l (Nat.le_refl _)

theorem eq_of_fst_nodup {α β : Type} (l : List (α × β))
    (h : (l.map Prod.fst).Nodup) (x y : α × β) (hx : x ∈ l) (hy : y ∈ l)
    (hfst : x.1 = y.1) : x = y := by
  induction l with
  | nil => cases hx
  | cons z tl ih =>
    rw [List.map_cons, List.nodup_cons] at h
    rcases List.mem_cons.mp hx with rfl | hx2 <;> rcases List.mem_cons.mp hy with h2 | hy2
    · exact h2.symm
    · exact absurd (hfst ▸ List.mem_map_of_mem Prod.fst hy2) h.1
    · exact absurd (hfst ▸ List.mem_map_of_mem Prod.fst hx2) (by rw [h2]; exact h.1)
    · exact ih h.2 hx2 hy2

theorem get_column_values_fst_sublist (pvs : List (ℕ × List NumericValue)) :
    ((_get_column_values pvs).map Prod.fst).Sublist (pvs.map Prod.fst) := by
  induction pvs with
  | nil => exact List.Sublist.refl _
  | cons rv rest ih =>
    rcases rv with ⟨r, vs⟩
    cases vs with
    | nil =>
      simp only [_get_column_values, List.filterMap_cons]
      exact List.Sublist.cons _ ih
    | cons v vrest =>
      simp only [_get_column_values, List.filterMap_cons]
      exact List.Sublist.cons₂ _ ih

theorem parse_column_values_fst (t : NTable) (c : ℕ) :
    (_parse_column_values t c).map Prod.fst = List.range t.cells.length := by
  unfold _parse_column_values
  rw [List.map_map]
  rw [show (Prod.fst ∘ fun rr : ℕ × List (List NumericValue) => (rr.1, rr.2.getD c [])) =
    Prod.fst from rfl]
  exact List.enum_map_fst _

theorem columns_to_numeric_values_fst_nodup (t : NTable) (c : ℕ) :
    ((columnsToNumericValues t c).map Prod.fst).Nodup := by
  unfold columnsToNumericValues
  refine List.Nodup.sublist (get_column_values_fst_sublist _) ?_
  rw [parse_column_values_fst]
  exact List.nodup_range _

theorem sorted_lt_getElem_filter_length {α : Type} [LinearOrder α] (l : List α)
    (hs : List.Sorted (· < ·) l) (j : ℕ) (hj : j < l.length) :
    (l.filter (fun x => decide (x < l[j]))).length = j := by
  induction l generalizing j with
  | nil => cases hj
  | cons a tl ih =>
    rcases List.sorted_cons.mp hs with ⟨ha, htl⟩
    cases j with
    | zero =>
      simp only [List.getElem_cons_zero]
      rw [List.filter_cons_of_neg (by simp)]
      rw [List.filter_eq_nil_iff.mpr ?_]
      · rfl
      · intro x hx
        simp only [decide_eq_true_eq, Bool.not_eq_true, decide_eq_false_iff_not, not_lt]
        exact le_of_lt (ha x hx)
    | succ j2 =>
      simp only [List.getElem_cons_succ]
      have hj2 : j2 < tl.length := by simpa using hj
      rw [List.filter_cons_of_pos (by
        simp only [decide_eq_true_eq]
        exact ha _ (List.getElem_mem hj2))]
      rw [List.length_cons, ih htl j2 hj2]

theorem getD_replicate_self {α : Type} (n i : ℕ) (d : α) :
    (List.replicate n d).getD i d = d := by
  rw [List.getD_eq_getElem?_getD, List.getElem?_replicate]
  by_cases hi : i < n
  · rw [if_pos hi]
    rfl
  · rw [if_neg hi]
    rfl

theorem rank_fold_length (ci ri : List ℕ) (c : ℕ) (A : List (ℕ × ℕ × ℕ))
    (acc : List ℕ × List ℕ) :
    ((A.foldl (fun acc2 x =>
        (setIdxs acc2.1 (_get_cell_token_indexes ci ri c x.1) x.2.1,
         setIdxs acc2.2 (_get_cell_token_indexes ci ri c x.1) x.2.2)) acc).1.length = acc.1.length ∧
     (A.foldl (fun acc2 x =>
        (setIdxs acc2.1 (_get_cell_token_indexes ci ri c x.1) x.2.1,
         setIdxs acc2.2 (_get_cell_token_indexes ci ri c x.1) x.2.2)) acc).2.length = acc.2.length) := by
  induction A generalizing acc with
  | nil => exact ⟨rfl, rfl⟩
  | cons b rest ih =>
    rw [List.foldl_cons]
    have := ih (setIdxs acc.1 (_get_cell_token_indexes ci ri c b.1) b.2.1,
      setIdxs acc.2 (_get_cell_token_indexes ci ri c b.1) b.2.2)
    rw [this.1, this.2]
    exact ⟨length_setIdxs _ _ _, length_setIdxs _ _ _⟩

theorem rank_fold_unchanged (ci ri : List ℕ) (c : ℕ) (A : List (ℕ × ℕ × ℕ))
    (acc : List ℕ × List ℕ) (i : ℕ)
    (h : ∀ x ∈ A, i ∉ _get_cell_token_indexes ci ri c x.1) :
    ((A.foldl (fun acc2 x =>
        (setIdxs acc2.1 (_get_cell_token_indexes ci ri c x.1) x.2.1,
         setIdxs acc2.2 (_get_cell_token_indexes ci ri c x.1) x.2.2)) acc).1.getD i 0 = acc.1.getD i 0 ∧
     (A.foldl (fun acc2 x =>
        (setIdxs acc2.1 (_get_cell_token_indexes ci ri c x.1) x.2.1,
         setIdxs acc2.2 (_get_cell_token_indexes ci ri c x.1) x.2.2)) acc).2.getD i 0 = acc.2.getD i 0) := by
  induction A generalizing acc with
  | nil => exact ⟨rfl, rfl⟩
  | cons b rest ih =>
    rw [List.foldl_cons]
    have hb := h b (List.mem_cons_self b rest)
    have := ih (setIdxs acc.1 (_get_cell_token_indexes ci ri c b.1) b.2.1,
      setIdxs acc.2 (_get_cell_token_indexes ci ri c b.1) b.2.2)
      (fun x hx => h x (List.mem_cons_of_mem b hx))
    rw [this.1, this.2]
    exact ⟨getD_setIdxs_of_not_mem _ _ _ _ _ hb, getD_setIdxs_of_not_mem _ _ _ _ _ hb⟩

theorem rank_fold_written (ci ri : List ℕ) (c : ℕ) (A : List (ℕ × ℕ × ℕ))
    (acc : List ℕ × List ℕ) (a : ℕ × ℕ × ℕ) (ha : a ∈ A)
    (huniq : ∀ b ∈ A, b.1 = a.1 → b = a)
    (i : ℕ) (hi : i ∈ _get_cell_token_indexes ci ri c a.1)
    (hl1 : acc.1.length = ci.length) (hl2 : acc.2.length = ci.length) :
    ((A.foldl (fun acc2 x =>
        (setIdxs acc2.1 (_get_cell_token_indexes ci ri c x.1) x.2.1,
         setIdxs acc2.2 (_get_cell_token_indexes ci ri c x.1) x.2.2)) acc).1.getD i 0 = a.2.1 ∧
     (A.foldl (fun acc2 x =>
        (setIdxs acc2.1 (_get_cell_token_indexes ci ri c x.1) x.2.1,
         setIdxs acc2.2 (_get_cell_token_indexes ci ri c x.1) x.2.2)) acc).2.getD i 0 = a.2.2) := by
  have hcti := (mem_get_cell_token_indexes ci ri c a.1 i).mp hi
  induction A generalizing acc with
  | nil => cases ha
  | cons b rest ih =>
    rw [List.foldl_cons]
    by_cases har : a ∈ rest
    · exact ih (setIdxs acc.1 (_get_cell_token_indexes ci ri c b.1) b.2.1,
        setIdxs acc.2 (_get_cell_token_indexes ci ri c b.1) b.2.2) har
        (fun x hx hx1 => huniq x (List.mem_cons_of_mem b hx) hx1)
        (by simp [length_setIdxs, hl1]) (by simp [length_setIdxs, hl2])
    · have hab : b = a := by
        rcases List.mem_cons.mp ha with rfl | h2
        · rfl
        · exact absurd h2 har
      subst hab
      have hrest : ∀ x ∈ rest, i ∉ _get_cell_token_indexes ci ri c x.1 := by
        intro x hx habs
        have hx1 : x.1 = b.1 := by
          have := (mem_get_cell_token_indexes ci ri c x.1 i).mp habs
          omega
        exact har (huniq x (List.mem_cons_of_mem b hx) hx1 ▸ hx)
      have hun := rank_fold_unchanged ci ri c rest
        (setIdxs acc.1 (_get_cell_token_indexes ci ri c b.1) b.2.1,
         setIdxs acc.2 (_get_cell_token_indexes ci ri c b.1) b.2.2) i hrest
      rw [hun.1, hun.2]
      constructor
      · exact getD_setIdxs_of_mem _ _ _ _ _ hi (by rw [hl1]; exact hcti.1)
      · exact getD_setIdxs_of_mem _ _ _ _ _ hi (by rw [hl2]; exact hcti.1)

theorem mem_rankAssignments (keyed : List (ℕ × List ℚ)) (su : List (List ℚ)) (a : ℕ × ℕ × ℕ) :
    a ∈ rankAssignments keyed su ↔
      ∃ j, ∃ _hj : j < su.length, ∃ x ∈ keyed, x.2 = su[j] ∧ a = (x.1, j + 1, su.length - j) := by
  unfold rankAssignments
  rw [List.mem_flatMap]
  constructor
  · rintro ⟨rv, hrv, ha⟩
    rw [List.mem_enum_iff_getElem?] at hrv
    have hj : rv.1 < su.length := by
      by_contra hcon
      rw [List.getElem?_eq_none (le_of_not_lt hcon)] at hrv
      cases hrv
    rw [List.getElem?_eq_getElem hj] at hrv
    have hval : su[rv.1] = rv.2 := Option.some.inj hrv
    rw [List.mem_map] at ha
    rcases ha with ⟨x, hx, rfl⟩
    rw [List.mem_filter] at hx
    refine ⟨rv.1, hj, x, hx.1, ?_, rfl⟩
    rw [hval]
    simpa using hx.2
  · rintro ⟨j, hj, x, hx, hx2, rfl⟩
    refine ⟨(j, su[j]), ?_, ?_⟩
    · rw [List.mem_enum_iff_getElem?]
      exact List.getElem?_eq_getElem hj
    · rw [List.mem_map]
      refine ⟨x, ?_, rfl⟩
      rw [List.mem_filter]
      exact ⟨hx, by simpa using hx2⟩

theorem column_ranks_body_eq (ci ri : List ℕ) (t : NTable) (acc : List ℕ × List ℕ) (c : ℕ) :
    _add_numeric_column_ranks_body ci ri t acc c =
      (if (columnsToNumericValues t c).isEmpty then acc
       else
        match get_numeric_sort_key_fn ((columnsToNumericValues t c).map (·.2)) with
        | .error _ => acc
        | .ok key_fn =>
          (rankAssignments
            ((columnsToNumericValues t c).map (fun rv => (rv.1, applySortKey key_fn rv.2)))
            ((dedupFirst (((columnsToNumericValues t c).map
                (fun rv => (rv.1, applySortKey key_fn rv.2))).map (·.2))).insertionSort (· ≤ ·))).foldl
            (fun acc2 x =>
              (setIdxs acc2.1 (_get_cell_token_indexes ci ri c x.1) x.2.1,
               setIdxs acc2.2 (_get_cell_token_indexes ci ri c x.1) x.2.2)) acc) := rfl

theorem column_ranks_body_length (ci ri : List ℕ) (t : NTable) (acc : List ℕ × List ℕ) (c : ℕ) :
    (_add_numeric_column_ranks_body ci ri t acc c).1.length = acc.1.length ∧
    (_add_numeric_column_ranks_body ci ri t acc c).2.length = acc.2.length := by
  rw [column_ranks_body_eq]
  by_cases he : (columnsToNumericValues t c).isEmpty
  · rw [if_pos he]
    exact ⟨rfl, rfl⟩
  · rw [if_neg he]
    cases hk : get_numeric_sort_key_fn ((columnsToNumericValues t c).map (·.2)) with
    | error e => exact ⟨rfl, rfl⟩
    | ok key_fn => exact rank_fold_length ci ri c _ acc

theorem column_ranks_body_unchanged (ci ri : List ℕ) (t : NTable) (c i : ℕ)
    (h : ci.getD i 0 ≠ c + 1 ∨ ri.getD i 0 = 0) (acc : List ℕ × List ℕ) :
    (_add_numeric_column_ranks_body ci ri t acc c).1.getD i 0 = acc.1.getD i 0 ∧
    (_add_numeric_column_ranks_body ci ri t acc c).2.getD i 0 = acc.2.getD i 0 := by
  rw [column_ranks_body_eq]
  by_cases he : (columnsToNumericValues t c).isEmpty
  · rw [if_pos he]
    exact ⟨rfl, rfl⟩
  · rw [if_neg he]
    cases hk : get_numeric_sort_key_fn ((columnsToNumericValues t c).map (·.2)) with
    | error e => exact ⟨rfl, rfl⟩
    | ok key_fn =>
      refine rank_fold_unchanged ci ri c _ acc i ?_
      intro x hx habs
      have := (mem_get_cell_token_indexes ci ri c x.1 i).mp habs
      rcases h with h | h <;> omega

theorem column_ranks_body_skip (ci ri : List ℕ) (t : NTable) (c : ℕ)
    (h : columnsToNumericValues t c = [] ∨
      ∃ e, get_numeric_sort_key_fn ((columnsToNumericValues t c).map (·.2)) = .error e)
    (acc : List ℕ × List ℕ) :
    _add_numeric_column_ranks_body ci ri t acc c = acc := by
  rw [column_ranks_body_eq]
  rcases h with h | ⟨e, h⟩
  · rw [if_pos (by rw [h]; rfl)]
  · by_cases he : (columnsToNumericValues t c).isEmpty
    · rw [if_pos he]
    · rw [if_neg he, h]

theorem ranks_outer_unchanged (ci ri : List ℕ) (t : NTable) (cs : List ℕ)
    (acc : List ℕ × List ℕ) (i : ℕ)
    (h : ∀ c ∈ cs, ∀ acc2 : List ℕ × List ℕ,
      (_add_numeric_column_ranks_body ci ri t acc2 c).1.getD i 0 = acc2.1.getD i 0 ∧
      (_add_numeric_column_ranks_body ci ri t acc2 c).2.getD i 0 = acc2.2.getD i 0) :
    (cs.foldl (_add_numeric_column_ranks_body ci ri t) acc).1.getD i 0 = acc.1.getD i 0 ∧
    (cs.foldl (_add_numeric_column_ranks_body ci ri t) acc).2.getD i 0 = acc.2.getD i 0 := by
  induction cs generalizing acc with
  | nil => exact ⟨rfl, rfl⟩
  | cons d rest ih =>
    rw [List.foldl_cons]
    have hd := h d (List.mem_cons_self d rest) acc
    have := ih (_add_numeric_column_ranks_body ci ri t acc d)
      (fun c hc => h c (List.mem_cons_of_mem d hc))
    rw [this.1, this.2, hd.1, hd.2]
    exact ⟨rfl, rfl⟩

theorem ranks_outer_written (ci ri : List ℕ) (t : NTable) (cs : List ℕ)
    (acc : List ℕ × List ℕ) (i c : ℕ) (w1 w2 : ℕ) (hc : c ∈ cs)
    (hothers : ∀ c2 ∈ cs, c2 = c ∨ ∀ acc2 : List ℕ × List ℕ,
      (_add_numeric_column_ranks_body ci ri t acc2 c2).1.getD i 0 = acc2.1.getD i 0 ∧
      (_add_numeric_column_ranks_body ci ri t acc2 c2).2.getD i 0 = acc2.2.getD i 0)
    (hwrite : ∀ acc2 : List ℕ × List ℕ, acc2.1.length = ci.length → acc2.2.length = ci.length →
      (_add_numeric_column_ranks_body ci ri t acc2 c).1.getD i 0 = w1 ∧
      (_add_numeric_column_ranks_body ci ri t acc2 c).2.getD i 0 = w2)
    (hl1 : acc.1.length = ci.length) (hl2 : acc.2.length = ci.length) :
    (cs.foldl (_add_numeric_column_ranks_body ci ri t) acc).1.getD i 0 = w1 ∧
    (cs.foldl (_add_numeric_column_ranks_body ci ri t) acc).2.getD i 0 = w2 := by
  induction cs generalizing acc with
  | nil => cases hc
  | cons d rest ih =>
    rw [List.foldl_cons]
    by_cases hcr : c ∈ rest
    · refine ih (_add_numeric_column_ranks_body ci ri t acc d) hcr
        (fun c2 hc2 => hothers c2 (List.mem_cons_of_mem d hc2)) ?_ ?_
      · rw [(column_ranks_body_length ci ri t acc d).1]
        exact hl1
      · rw [(column_ranks_body_length ci ri t acc d).2]
        exact hl2
    · have hdc : d = c := by
        rcases List.mem_cons.mp hc with rfl | h2
        · rfl
        · exact absurd h2 hcr
      subst hdc
      have hrest : ∀ c2 ∈ rest, ∀ acc2 : List ℕ × List ℕ,
          (_add_numeric_column_ranks_body ci ri t acc2 c2).1.getD i 0 = acc2.1.getD i 0 ∧
          (_add_numeric_column_ranks_body ci ri t acc2 c2).2.getD i 0 = acc2.2.getD i 0 := by
        intro c2 hc2
        rcases hothers c2 (List.mem_cons_of_mem d hc2) with rfl | hun
        · exact absurd hc2 hcr
        · exact hun
      have hun := ranks_outer_unchanged ci ri t rest
        (_add_numeric_column_ranks_body ci ri t acc d) i hrest
      rw [hun.1, hun.2]
      exact hwrite acc hl1 hl2

theorem keyed_map_fst (tnv : List (ℕ × NumericValue)) (key_fn : SortKeyFn) :
    (tnv.map (fun rv => (rv.1, applySortKey key_fn rv.2))).map Prod.fst = tnv.map Prod.fst := by
  rw [List.map_map]
  rfl

theorem keyed_map_snd (tnv : List (ℕ × NumericValue)) (key_fn : SortKeyFn) :
    (tnv.map (fun rv => (rv.1, applySortKey key_fn rv.2))).map (·.2) =
      tnv.map (fun rv => applySortKey key_fn rv.2) := by
  rw [List.map_map]
  rfl

theorem column_ranks_body_written (ci ri : List ℕ) (t : NTable) (c : ℕ)
    (key_fn : SortKeyFn)
    (hkey : get_numeric_sort_key_fn ((columnsToNumericValues t c).map (·.2)) = .ok key_fn)
    (r : ℕ) (v : NumericValue) (hrv : (r, v) ∈ columnsToNumericValues t c)
    (i : ℕ) (hi : i ∈ _get_cell_token_indexes ci ri c r)
    (acc : List ℕ × List ℕ) (hl1 : acc.1.length = ci.length) (hl2 : acc.2.length = ci.length) :
    (_add_numeric_column_ranks_body ci ri t acc c).1.getD i 0 =
      ((dedupFirst ((columnsToNumericValues t c).map (fun rv => applySortKey key_fn rv.2))).filter
        (fun x => decide (x < applySortKey key_fn v))).length + 1 ∧
    (_add_numeric_column_ranks_body ci ri t acc c).2.getD i 0 =
      (dedupFirst ((columnsToNumericValues t c).map (fun rv => applySortKey key_fn rv.2))).length -
      ((dedupFirst ((columnsToNumericValues t c).map (fun rv => applySortKey key_fn rv.2))).filter
        (fun x => decide (x < applySortKey key_fn v))).length := by
  set tnv := columnsToNumericValues t c with htnv
  set keyed := tnv.map (fun rv => (rv.1, applySortKey key_fn rv.2)) with hkeyed
  set dd := dedupFirst (tnv.map (fun rv => applySortKey key_fn rv.2)) with hdd
  have hddk : dedupFirst (keyed.map (·.2)) = dd := by
    rw [hkeyed, keyed_map_snd]
  set su := (dedupFirst (keyed.map (·.2))).insertionSort (· ≤ ·) with hsu
  set k := applySortKey key_fn v with hk
  have hne : ¬ tnv.isEmpty = true := by
    cases htl : tnv with
    | nil =>
      rw [htl] at hrv
      cases hrv
    | cons a tl => simp [htl]
  have hperm : su.Perm dd := by
    rw [hsu, hddk]
    exact List.perm_insertionSort _ _
  have hddnodup : dd.Nodup := by
    rw [hdd]
    exact nodup_dedupFirst _
  have hsunodup : su.Nodup := (List.Perm.nodup_iff hperm).mpr hddnodup
  have hsorted_le : su.Sorted (· ≤ ·) := by
    rw [hsu]
    exact List.sorted_insertionSort _ _
  have hsorted_lt : su.Sorted (· < ·) := hsorted_le.lt_of_le hsunodup
  have hrk : (r, k) ∈ keyed := by
    rw [hkeyed, hk]
    exact List.mem_map_of_mem _ hrv
  have hkmem : k ∈ su := by
    rw [List.Perm.mem_iff hperm, hdd, ← keyed_map_snd tnv key_fn, mem_dedupFirst]
    exact List.mem_map_of_mem (·.2) hrk
  obtain ⟨j, hj, hsj⟩ := List.mem_iff_getElem.mp hkmem
  have hjfilter : (su.filter (fun x => decide (x < k))).length = j := by
    rw [← hsj]
    exact sorted_lt_getElem_filter_length su hsorted_lt j hj
  have hddfilter : (dd.filter (fun x => decide (x < k))).length = j := by
    rw [← hjfilter]
    exact (List.Perm.length_eq (List.Perm.filter _ hperm)).symm
  have hddlen : dd.length = su.length := (List.Perm.length_eq hperm).symm
  have hkeyednodup : (keyed.map Prod.fst).Nodup := by
    rw [hkeyed, keyed_map_fst, htnv]
    exact columns_to_numeric_values_fst_nodup t c
  have ha : ((r, j + 1, su.length - j) : ℕ × ℕ × ℕ) ∈ rankAssignments keyed su := by
    rw [mem_rankAssignments]
    exact ⟨j, hj, (r, k), hrk, by simpa using hsj.symm, rfl⟩
  have huniq : ∀ b ∈ rankAssignments keyed su, b.1 = r → b = (r, j + 1, su.length - j) := by
    intro b hb hb1
    rw [mem_rankAssignments] at hb
    rcases hb with ⟨j2, hj2, x, hx, hx2, rfl⟩
    have hx1 : x.1 = r := hb1
    have hxeq : x = (r, k) := eq_of_fst_nodup keyed hkeyednodup x (r, k) hx hrk hx1
    have hsame : su[j2] = su[j] := by
      rw [← hx2, hxeq, hsj]
    have hjj : j2 = j := (List.Nodup.getElem_inj_iff hsunodup).mp hsame
    rw [hx1, hjj]
  have hfold := rank_fold_written ci ri c (rankAssignments keyed su) acc
    (r, j + 1, su.length - j) ha huniq i hi hl1 hl2
  constructor
  · rw [show (_add_numeric_column_ranks_body ci ri t acc c).1 =
      ((rankAssignments keyed su).foldl (fun acc2 x =>
        (setIdxs acc2.1 (_get_cell_token_indexes ci ri c x.1) x.2.1,
         setIdxs acc2.2 (_get_cell_token_indexes ci ri c x.1) x.2.2)) acc).1 from by
      rw [column_ranks_body_eq, if_neg hne, ← htnv, hkey]]
    rw [hfold.1, hddfilter]
  · rw [show (_add_numeric_column_ranks_body ci ri t acc c).2 =
      ((rankAssignments keyed su).foldl (fun acc2 x =>
        (setIdxs acc2.1 (_get_cell_token_indexes ci ri c x.1) x.2.1,
         setIdxs acc2.2 (_get_cell_token_indexes ci ri c x.1) x.2.2)) acc).2 from by
      rw [column_ranks_body_eq, if_neg hne, ← htnv, hkey]]
    rw [hfold.2, hddfilter, hddlen]

/-- Claim C4. Column ranks: in any column whose parsed numeric values
admit a common sort key, every token of a cell whose value has n strictly
smaller distinct key values in the column receives column rank n + 1 and
inverse rank (distinct count) - n — so key-equal (tied) values share a
rank; and in any column whose values admit no common sort key every token
of the column keeps rank 0 and inverse rank 0. -/
theorem C4_column_ranks (ci ri : List ℕ) (t : NTable) (c : ℕ) (hc : c < t.num_columns) :
    (∀ key_fn, get_numeric_sort_key_fn ((columnsToNumericValues t c).map (·.2)) = .ok key_fn →
      ∀ r v, (r, v) ∈ columnsToNumericValues t c →
      ∀ i, i ∈ _get_cell_token_indexes ci ri c r →
      (_add_numeric_column_ranks ci ri (some t)).1.getD i 0 =
        ((dedupFirst ((columnsToNumericValues t c).map (fun rv => applySortKey key_fn rv.2))).filter
          (fun x => decide (x < applySortKey key_fn v))).length + 1 ∧
      (_add_numeric_column_ranks ci ri (some t)).2.getD i 0 =
        (dedupFirst ((columnsToNumericValues t c).map (fun rv => applySortKey key_fn rv.2))).length -
        ((dedupFirst ((columnsToNumericValues t c).map (fun rv => applySortKey key_fn rv.2))).filter
          (fun x => decide (x < applySortKey key_fn v))).length) ∧
    ((∃ e, get_numeric_sort_key_fn ((columnsToNumericValues t c).map (·.2)) = .error e) →
      ∀ i, ci.getD i 0 = c + 1 →
      (_add_numeric_column_ranks ci ri (some t)).1.getD i 0 = 0 ∧
      (_add_numeric_column_ranks ci ri (some t)).2.getD i 0 = 0) := by
  have heq : _add_numeric_column_ranks ci ri (some t) =
      (List.range t.num_columns).foldl (_add_numeric_column_ranks_body ci ri t)
        (List.replicate ci.length 0, List.replicate ci.length 0) := rfl
  constructor
  · intro key_fn hkey r v hrv i hi
    have hci : ci.getD i 0 = c + 1 := ((mem_get_cell_token_indexes ci ri c r i).mp hi).2.1
    have hmain := ranks_outer_written ci ri t (List.range t.num_columns)
      (List.replicate ci.length 0, List.replicate ci.length 0) i c
      (((dedupFirst ((columnsToNumericValues t c).map (fun rv => applySortKey key_fn rv.2))).filter
        (fun x => decide (x < applySortKey key_fn v))).length + 1)
      ((dedupFirst ((columnsToNumericValues t c).map (fun rv => applySortKey key_fn rv.2))).length -
        ((dedupFirst ((columnsToNumericValues t c).map (fun rv => applySortKey key_fn rv.2))).filter
          (fun x => decide (x < applySortKey key_fn v))).length)
      (List.mem_range.mpr hc)
      (fun c2 _ => by
        by_cases h2 : c2 = c
        · exact Or.inl h2
        · exact Or.inr (fun acc2 =>
            column_ranks_body_unchanged ci ri t c2 i (Or.inl (by omega)) acc2))
      (fun acc2 h1 h2 =>
        column_ranks_body_written ci ri t c key_fn hkey r v hrv i hi acc2 h1 h2)
      (by simp) (by simp)
    rw [heq]
    exact hmain
  · rintro ⟨e, he⟩ i hci
    have hun := ranks_outer_unchanged ci ri t (List.range t.num_columns)
      (List.replicate ci.length 0, List.replicate ci.length 0) i
      (fun c2 _ acc2 => by
        by_cases h2 : c2 = c
        · subst h2
          rw [column_ranks_body_skip ci ri t c2 (Or.inr ⟨e, he⟩) acc2]
          exact ⟨rfl, rfl⟩
        · exact column_ranks_body_unchanged ci ri t c2 i (Or.inl (by omega)) acc2)
    rw [heq, hun.1, hun.2]
    exact ⟨getD_replicate_self _ _ _, getD_replicate_self _ _ _⟩

/-- Witness for claim C4 at a concrete input: in the numeric column (30
above 29), the token of the cell holding 30 gets rank 2 and inverse rank
1. -/
theorem C4_column_ranks_witness :
    ((1 : ℕ) < c4Table.num_columns) ∧
    get_numeric_sort_key_fn ((columnsToNumericValues c4Table 1).map (·.2)) = .ok .numberKey ∧
    ((0, ({ float_value := some 30, date := none } : NumericValue)) ∈
      columnsToNumericValues c4Table 1) ∧
    (6 ∈ _get_cell_token_indexes c4ci c4ri 1 0) ∧
    ((_add_numeric_column_ranks c4ci c4ri (some c4Table)).1.getD 6 0 =
      ((dedupFirst ((columnsToNumericValues c4Table 1).map
          (fun rv => applySortKey .numberKey rv.2))).filter
        (fun x => decide (x < applySortKey .numberKey
          { float_value := some 30, date := none }))).length + 1 ∧
     (_add_numeric_column_ranks c4ci c4ri (some c4Table)).2.getD 6 0 =
      (dedupFirst ((columnsToNumericValues c4Table 1).map
          (fun rv => applySortKey .numberKey rv.2))).length -
      ((dedupFirst ((columnsToNumericValues c4Table 1).map
          (fun rv => applySortKey .numberKey rv.2))).filter
        (fun x => decide (x < applySortKey .numberKey
          { float_value := some 30, date := none }))).length) :=
  ⟨by decide, by decide, by decide, by decide,
   (C4_column_ranks c4ci c4ri c4Table 1 (by decide)).1 .numberKey (by decide) 0
     { float_value := some 30, date := none } (by decide) 6 (by decide)⟩

/-! Numeric relation machinery. -/

theorem foldl_flatMap {α β γ : Type} (f : γ → β → γ) (g : α → List β) (l : List α) (init : γ) :
    (l.flatMap g).foldl f init = l.foldl (fun acc x => (g x).foldl f acc) init := by
  induction l generalizing init with
  | nil => rfl
  | cons a rest ih =>
    rw [List.flatMap_cons, List.foldl_append, List.foldl_cons, ih]

theorem foldl_filterMap {α β γ : Type} (f : γ → β → γ) (g : α → Option β) (l : List α) (init : γ) :
    (l.filterMap g).foldl f init =
      l.foldl (fun acc x =>
        match g x with
        | some y => f acc y
        | none => acc) init := by
  induction l generalizing init with
  | nil => rfl
  | cons a rest ih =>
    rw [List.filterMap_cons]
    cases hg : g a with
    | none =>
      rw [List.foldl_cons, hg, ih]
    | some y =>
      rw [List.foldl_cons, List.foldl_cons, hg, ih]

theorem foldl_congr_fn {α γ : Type} (l : List α) (f g : γ → α → γ) (init : γ)
    (h : ∀ acc x, f acc x = g acc x) : l.foldl f init = l.foldl g init := by
  have he : f = g := funext (fun acc => funext (fun x => h acc x))
  rw [he]

theorem cellIndicesToRelations_eq (question_values : List NumericValue) (t : NTable) :
    cellIndicesToRelations question_values t = applyAdds [] (relAdditions question_values t) := by
  unfold cellIndicesToRelations applyAdds relAdditions
  rw [foldl_flatMap]
  refine foldl_congr_fn _ _ _ _ (fun m value => ?_)
  rw [foldl_flatMap]
  refine foldl_congr_fn _ _ _ _ (fun m2 col => ?_)
  show (match _get_numeric_sort_key_fn (columnsToNumericValues t col) value with
    | none => m2
    | some sort_key_fn =>
      List.foldl (fun m rv =>
        match get_numeric_relation value rv.2 sort_key_fn with
        | none => m
        | some rel => assocAdd m (col, rv.1) rel) m2 (columnsToNumericValues t col)) =
    List.foldl (fun m e => assocAdd m e.1 e.2) m2
      (match _get_numeric_sort_key_fn (columnsToNumericValues t col) value with
      | none => []
      | some sort_key_fn =>
        List.filterMap
          (fun rv => Option.map (fun rel => ((col, rv.1), rel)) (get_numeric_relation value rv.2 sort_key_fn))
          (columnsToNumericValues t col))
  cases hfn : _get_numeric_sort_key_fn (columnsToNumericValues t col) value with
  | none => rfl
  | some sort_key_fn =>
    rw [foldl_filterMap]
    refine foldl_congr_fn _ _ _ _ (fun m3 rv => ?_)
    cases hrel : get_numeric_relation value rv.2 sort_key_fn with
    | none => rfl
    | some rel => rfl

theorem mem_map_fst_iff (m : List ((ℕ × ℕ) × List Relation)) (k : ℕ × ℕ) :
    k ∈ m.map Prod.fst ↔ ∃ rels, (k, rels) ∈ m := by
  rw [List.mem_map]
  constructor
  · rintro ⟨e, he, rfl⟩
    exact ⟨e.2, he⟩
  · rintro ⟨rels, h⟩
    exact ⟨(k, rels), h, rfl⟩

theorem assocAdd_map_fst (m : List ((ℕ × ℕ) × List Relation)) (key : ℕ × ℕ) (rel : Relation) :
    (assocAdd m key rel).map Prod.fst =
      (if key ∈ m.map Prod.fst then m.map Prod.fst else m.map Prod.fst ++ [key]) := by
  induction m with
  | nil => simp [assocAdd]
  | cons e rest ih =>
    obtain ⟨ek, erels⟩ := e
    simp only [assocAdd]
    by_cases he : ek = key
    · subst he
      rw [if_pos rfl]
      by_cases hr : rel ∈ erels
      · rw [if_pos hr, List.map_cons,
          if_pos (List.mem_cons_self _ _ : (ek, erels).1 ∈ (ek, erels).1 :: rest.map Prod.fst)]
      · rw [if_neg hr, List.map_cons, List.map_cons,
          if_pos (List.mem_cons_self _ _ : (ek, erels).1 ∈ (ek, erels).1 :: rest.map Prod.fst)]
    · rw [if_neg he, List.map_cons, List.map_cons, ih]
      by_cases hk : key ∈ rest.map Prod.fst
      · rw [if_pos hk, if_pos (List.mem_cons_of_mem _ hk)]
      · rw [if_neg hk, if_neg (by
          intro habs
          rcases List.mem_cons.mp habs with h2 | h2
          · exact he h2.symm
          · exact hk h2)]
        rfl

theorem assocAdd_fst_nodup (m : List ((ℕ × ℕ) × List Relation)) (key : ℕ × ℕ) (rel : Relation)
    (h : (m.map Prod.fst).Nodup) : ((assocAdd m key rel).map Prod.fst).Nodup := by
  rw [assocAdd_map_fst]
  by_cases hk : key ∈ m.map Prod.fst
  · rw [if_pos hk]
    exact h
  · rw [if_neg hk]
    refine List.Nodup.append h (List.nodup_singleton _) ?_
    intro a ha hb
    rw [List.mem_singleton] at hb
    subst hb
    exact hk ha

theorem assocAdd_rels_nodup (m : List ((ℕ × ℕ) × List Relation)) (key : ℕ × ℕ) (rel : Relation)
    (h : ∀ e ∈ m, e.2.Nodup) : ∀ e ∈ assocAdd m key rel, e.2.Nodup := by
  induction m with
  | nil =>
    intro e he
    rw [assocAdd, List.mem_singleton] at he
    subst he
    exact List.nodup_singleton rel
  | cons b rest ih =>
    obtain ⟨bk, brels⟩ := b
    intro e he
    simp only [assocAdd] at he
    by_cases hb : bk = key
    · rw [if_pos hb] at he
      by_cases hr : rel ∈ brels
      · rw [if_pos hr] at he
        exact h e he
      · rw [if_neg hr] at he
        rcases List.mem_cons.mp he with heq | h2
        · subst heq
          have := h (bk, brels) (List.mem_cons_self _ _)
          refine List.Nodup.append this (List.nodup_singleton _) ?_
          intro a ha hmem
          rw [List.mem_singleton] at hmem
          subst hmem
          exact hr ha
        · exact h e (List.mem_cons_of_mem _ h2)
    · rw [if_neg hb] at he
      rcases List.mem_cons.mp he with heq | h2
      · subst heq
        exact h (bk, brels) (List.mem_cons_self _ _)
      · exact ih (fun x hx => h x (List.mem_cons_of_mem _ hx)) e h2

theorem assocAdd_rels_ne_nil (m : List ((ℕ × ℕ) × List Relation)) (key : ℕ × ℕ) (rel : Relation)
    (h : ∀ e ∈ m, e.2 ≠ []) : ∀ e ∈ assocAdd m key rel, e.2 ≠ [] := by
  induction m with
  | nil =>
    intro e he
    rw [assocAdd, List.mem_singleton] at he
    subst he
    simp
  | cons b rest ih =>
    obtain ⟨bk, brels⟩ := b
    intro e he
    simp only [assocAdd] at he
    by_cases hb : bk = key
    · rw [if_pos hb] at he
      by_cases hr : rel ∈ brels
      · rw [if_pos hr] at he
        exact h e he
      · rw [if_neg hr] at he
        rcases List.mem_cons.mp he with heq | h2
        · subst heq
          simp
        · exact h e (List.mem_cons_of_mem _ h2)
    · rw [if_neg hb] at he
      rcases List.mem_cons.mp he with heq | h2
      · subst heq
        exact h (bk, brels) (List.mem_cons_self _ _)
      · exact ih (fun x hx => h x (List.mem_cons_of_mem _ hx)) e h2

theorem assocAdd_mem_rel (m : List ((ℕ × ℕ) × List Relation)) (key : ℕ × ℕ) (rel : Relation)
    (k : ℕ × ℕ) (r : Relation) :
    (∃ rels, (k, rels) ∈ assocAdd m key rel ∧ r ∈ rels) ↔
      (∃ rels, (k, rels) ∈ m ∧ r ∈ rels) ∨ (k = key ∧ r = rel) := by
  induction m with
  | nil =>
    simp only [assocAdd, List.mem_singleton, List.not_mem_nil]
    constructor
    · rintro ⟨rels, h1, h2⟩
      injection h1 with hk hr
      rw [hr, List.mem_singleton] at h2
      exact Or.inr ⟨hk, h2⟩
    · rintro (⟨rels, h, _⟩ | ⟨hk, hr⟩)
      · cases h
      · refine ⟨[rel], ?_, ?_⟩
        · rw [hk]
        · rw [hr]
          exact List.mem_singleton_self rel
  | cons b rest ih =>
    obtain ⟨bk, brels⟩ := b
    simp only [assocAdd]
    by_cases hb : bk = key
    · rw [if_pos hb]
      by_cases hr : rel ∈ brels
      · rw [if_pos hr]
        constructor
        · exact Or.inl
        · rintro (h | ⟨hk2, hr2⟩)
          · exact h
          · refine ⟨brels, ?_, ?_⟩
            · rw [hk2, ← hb]
              exact List.mem_cons_self _ _
            · rw [hr2]
              exact hr
      · rw [if_neg hr]
        constructor
        · rintro ⟨rels, h1, h2⟩
          rcases List.mem_cons.mp h1 with heq | h3
          · injection heq with hk2 hre
            rw [hre, List.mem_append, List.mem_singleton] at h2
            rcases h2 with h4 | h4
            · refine Or.inl ⟨brels, ?_, h4⟩
              rw [hk2]
              exact List.mem_cons_self _ _
            · exact Or.inr ⟨hk2.trans hb, h4⟩
          · exact Or.inl ⟨rels, List.mem_cons_of_mem _ h3, h2⟩
        · rintro (⟨rels, h1, h2⟩ | ⟨hk2, hr2⟩)
          · rcases List.mem_cons.mp h1 with heq | h3
            · injection heq with hk2 hre
              refine ⟨brels ++ [rel], ?_, ?_⟩
              · rw [hk2]
                exact List.mem_cons_self _ _
              · rw [← hre]
                exact List.mem_append_left _ h2
            · exact ⟨rels, List.mem_cons_of_mem _ h3, h2⟩
          · refine ⟨brels ++ [rel], ?_, ?_⟩
            · rw [hk2, ← hb]
              exact List.mem_cons_self _ _
            · rw [hr2]
              exact List.mem_append_right _ (List.mem_singleton_self rel)
    · rw [if_neg hb]
      constructor
      · rintro ⟨rels, h1, h2⟩
        rcases List.mem_cons.mp h1 with heq | h3
        · exact Or.inl ⟨rels, heq ▸ List.mem_cons_self _ _, h2⟩
        · rcases ih.mp ⟨rels, h3, h2⟩ with ⟨rels2, h4, h5⟩ | h4
          · exact Or.inl ⟨rels2, List.mem_cons_of_mem _ h4, h5⟩
          · exact Or.inr h4
      · rintro (⟨rels, h1, h2⟩ | h1)
        · rcases List.mem_cons.mp h1 with heq | h3
          · exact ⟨rels, heq ▸ List.mem_cons_self _ _, h2⟩
          · rcases ih.mpr (Or.inl ⟨rels, h3, h2⟩) with ⟨rels2, h4, h5⟩
            exact ⟨rels2, List.mem_cons_of_mem _ h4, h5⟩
        · rcases ih.mpr (Or.inr h1) with ⟨rels2, h4, h5⟩
          exact ⟨rels2, List.mem_cons_of_mem _ h4, h5⟩

theorem assocAdd_key_present (m : List ((ℕ × ℕ) × List Relation)) (key : ℕ × ℕ)
    (rel : Relation) (k : ℕ × ℕ) :
    (∃ rels, (k, rels) ∈ assocAdd m key rel) ↔ (∃ rels, (k, rels) ∈ m) ∨ k = key := by
  rw [← mem_map_fst_iff, ← mem_map_fst_iff, assocAdd_map_fst]
  by_cases hk : key ∈ m.map Prod.fst
  · rw [if_pos hk]
    constructor
    · exact Or.inl
    · rintro (h | rfl)
      · exact h
      · exact hk
  · rw [if_neg hk, List.mem_append, List.mem_singleton]

theorem applyAdds_fst_nodup (adds : List ((ℕ × ℕ) × Relation)) :
    ∀ m : List ((ℕ × ℕ) × List Relation), (m.map Prod.fst).Nodup →
      ((applyAdds m adds).map Prod.fst).Nodup := by
  induction adds with
  | nil => exact fun m h => h
  | cons e rest ih =>
    intro m h
    exact ih (assocAdd m e.1 e.2) (assocAdd_fst_nodup m e.1 e.2 h)

theorem applyAdds_rels_nodup (adds : List ((ℕ × ℕ) × Relation)) :
    ∀ m : List ((ℕ × ℕ) × List Relation), (∀ e ∈ m, e.2.Nodup) →
      ∀ e ∈ applyAdds m adds, e.2.Nodup := by
  induction adds with
  | nil => exact fun m h => h
  | cons e rest ih =>
    intro m h
    exact ih (assocAdd m e.1 e.2) (assocAdd_rels_nodup m e.1 e.2 h)

theorem applyAdds_rels_ne_nil (adds : List ((ℕ × ℕ) × Relation)) :
    ∀ m : List ((ℕ × ℕ) × List Relation), (∀ e ∈ m, e.2 ≠ []) →
      ∀ e ∈ applyAdds m adds, e.2 ≠ [] := by
  induction adds with
  | nil => exact fun m h => h
  | cons e rest ih =>
    intro m h
    exact ih (assocAdd m e.1 e.2) (assocAdd_rels_ne_nil m e.1 e.2 h)

theorem applyAdds_mem_rel (adds : List ((ℕ × ℕ) × Relation)) :
    ∀ m : List ((ℕ × ℕ) × List Relation), ∀ (k : ℕ × ℕ) (r : Relation),
      ((∃ rels, (k, rels) ∈ applyAdds m adds ∧ r ∈ rels) ↔
        (∃ rels, (k, rels) ∈ m ∧ r ∈ rels) ∨ (k, r) ∈ adds) := by
  induction adds with
  | nil =>
    intro m k r
    simp [applyAdds]
  | cons e rest ih =>
    intro m k r
    have step : applyAdds m (e :: rest) = applyAdds (assocAdd m e.1 e.2) rest := rfl
    rw [step, ih (assocAdd m e.1 e.2) k r, assocAdd_mem_rel m e.1 e.2 k r, List.mem_cons]
    constructor
    · rintro ((h | ⟨hk, hr⟩) | h)
      · exact Or.inl h
      · refine Or.inr (Or.inl ?_)
        rw [hk, hr]
      · exact Or.inr (Or.inr h)
    · rintro (h | (heq | h))
      · exact Or.inl (Or.inl h)
      · refine Or.inl (Or.inr ?_)
        rw [← heq]
        exact ⟨rfl, rfl⟩
      · exact Or.inr h

theorem applyAdds_keys (adds : List ((ℕ × ℕ) × Relation)) :
    ∀ m : List ((ℕ × ℕ) × List Relation), ∀ k : ℕ × ℕ,
      ((∃ rels, (k, rels) ∈ applyAdds m adds) ↔
        (∃ rels, (k, rels) ∈ m) ∨ ∃ r, (k, r) ∈ adds) := by
  induction adds with
  | nil =>
    intro m k
    simp [applyAdds]
  | cons e rest ih =>
    intro m k
    have step : applyAdds m (e :: rest) = applyAdds (assocAdd m e.1 e.2) rest := rfl
    rw [step, ih (assocAdd m e.1 e.2) k, assocAdd_key_present m e.1 e.2 k]
    constructor
    · rintro ((h | rfl) | ⟨r, h⟩)
      · exact Or.inl h
      · exact Or.inr ⟨e.2, List.mem_cons_self e rest⟩
      · exact Or.inr ⟨r, List.mem_cons_of_mem _ h⟩
    · rintro (h | ⟨r, h⟩)
      · exact Or.inl (Or.inl h)
      · rcases List.mem_cons.mp h with heq | h2
        · refine Or.inl (Or.inr ?_)
          rw [← heq]
        · exact Or.inr ⟨r, h2⟩

theorem rel_fold_unchanged (ci ri : List ℕ) (D : List ((ℕ × ℕ) × List Relation))
    (arr : List ℕ) (i : ℕ)
    (h : ∀ e ∈ D, i ∉ _get_cell_token_indexes ci ri e.1.1 e.1.2) :
    (D.foldl (fun arr2 e =>
      setIdxs arr2 (_get_cell_token_indexes ci ri e.1.1 e.1.2) (relationSetIndex e.2)) arr).getD i 0 =
      arr.getD i 0 := by
  induction D generalizing arr with
  | nil => rfl
  | cons e rest ih =>
    rw [List.foldl_cons, ih _ (fun x hx => h x (List.mem_cons_of_mem e hx)),
      getD_setIdxs_of_not_mem _ _ _ _ _ (h e (List.mem_cons_self e rest))]

theorem rel_fold_written (ci ri : List ℕ) (D : List ((ℕ × ℕ) × List Relation))
    (arr : List ℕ) (e0 : (ℕ × ℕ) × List Relation) (he0 : e0 ∈ D)
    (huniq : ∀ e ∈ D, e.1 = e0.1 → e = e0)
    (i : ℕ) (hi : i ∈ _get_cell_token_indexes ci ri e0.1.1 e0.1.2)
    (hl : arr.length = ci.length) :
    (D.foldl (fun arr2 e =>
      setIdxs arr2 (_get_cell_token_indexes ci ri e.1.1 e.1.2) (relationSetIndex e.2)) arr).getD i 0 =
      relationSetIndex e0.2 := by
  have hcti := (mem_get_cell_token_indexes ci ri e0.1.1 e0.1.2 i).mp hi
  induction D generalizing arr with
  | nil => cases he0
  | cons e rest ih =>
    rw [List.foldl_cons]
    by_cases her : e0 ∈ rest
    · exact ih _ her (fun x hx hx1 => huniq x (List.mem_cons_of_mem e hx) hx1)
        (by rw [length_setIdxs]; exact hl)
    · have hee : e = e0 := by
        rcases List.mem_cons.mp he0 with h2 | h2
        · exact h2.symm
        · exact absurd h2 her
      subst hee
      have hrest : ∀ x ∈ rest, i ∉ _get_cell_token_indexes ci ri x.1.1 x.1.2 := by
        intro x hx habs
        have h2 := (mem_get_cell_token_indexes ci ri x.1.1 x.1.2 i).mp habs
        have hfst : x.1 = e.1 := by
          have hc : x.1.1 = e.1.1 := by omega
          have hr : x.1.2 = e.1.2 := by omega
          exact Prod.ext hc hr
        exact her (huniq x (List.mem_cons_of_mem e hx) hfst ▸ hx)
      rw [rel_fold_unchanged ci ri rest _ i hrest]
      exact getD_setIdxs_of_mem _ _ _ _ _ hi (by rw [hl]; exact hcti.1)

theorem add_numeric_relations_eq (question_values : List NumericValue) (ci ri : List ℕ)
    (t : NTable) :
    _add_numeric_relations question_values ci ri (some t) =
      (cellIndicesToRelations question_values t).foldl (fun arr e =>
        setIdxs arr (_get_cell_token_indexes ci ri e.1.1 e.1.2) (relationSetIndex e.2))
        (List.replicate ci.length 0) := rfl

theorem mem_relAdditions (question_values : List NumericValue) (t : NTable)
    (c r : ℕ) (rel : Relation) :
    ((c, r), rel) ∈ relAdditions question_values t ↔
      ∃ value ∈ question_values, c < t.num_columns ∧ ∃ fn,
        _get_numeric_sort_key_fn (columnsToNumericValues t c) value = some fn ∧
        ∃ cv, (r, cv) ∈ columnsToNumericValues t c ∧
          get_numeric_relation value cv fn = some rel := by
  unfold relAdditions
  rw [List.mem_flatMap]
  constructor
  · rintro ⟨value, hv, h2⟩
    rw [List.mem_flatMap] at h2
    rcases h2 with ⟨col, hcol, h3⟩
    cases hfn : _get_numeric_sort_key_fn (columnsToNumericValues t col) value with
    | none =>
      rw [hfn] at h3
      cases h3
    | some fn =>
      rw [hfn] at h3
      rw [List.mem_filterMap] at h3
      rcases h3 with ⟨rv, hrv, heq⟩
      cases hrel : get_numeric_relation value rv.2 fn with
      | none =>
        rw [hrel] at heq
        cases heq
      | some rel0 =>
        rw [hrel] at heq
        simp only [Option.map_some'] at heq
        injection heq with heq1
        injection heq1 with hp hrel2
        injection hp with hc hr
        subst hc
        subst hrel2
        refine ⟨value, hv, List.mem_range.mp hcol, fn, hfn, rv.2, ?_, hrel⟩
        rw [← hr]
        exact hrv
  · rintro ⟨value, hv, hc, fn, hfn, cv, hcv, hrel⟩
    refine ⟨value, hv, ?_⟩
    rw [List.mem_flatMap]
    refine ⟨c, List.mem_range.mpr hc, ?_⟩
    rw [hfn, List.mem_filterMap]
    exact ⟨(r, cv), hcv, by rw [hrel]; rfl⟩

/-- Claim C5. Numeric relations: EQ is reported for a question value and
a cell value exactly when their unified sort keys are equal (and then
neither LT nor GT is reported for that pair, the comparison being a
single if chain); each cell's accumulated set of distinct relations is
encoded as the sum of 2 ^ (ordinal - EQ ordinal) over the set and written
to every token of the cell, cells participating in no relation keeping 0;
and a relation belongs to a cell's set exactly when some numeric value of
the question compares to that cell's value under a usable common sort
key with that outcome. -/
theorem C5_numeric_relations (question_values : List NumericValue) (ci ri : List ℕ)
    (t : NTable) :
    (∀ value cell_value fn, get_numeric_relation value cell_value fn = some .EQ ↔
      applySortKey fn value = applySortKey fn cell_value) ∧
    (∀ i c r, i < ci.length → ci.getD i 0 = c + 1 → ri.getD i 0 = r + 1 →
      (∀ rels, ((c, r), rels) ∈ cellIndicesToRelations question_values t →
        (_add_numeric_relations question_values ci ri (some t)).getD i 0 = relationSetIndex rels ∧
        rels.Nodup ∧ rels ≠ []) ∧
      ((¬ ∃ rels, ((c, r), rels) ∈ cellIndicesToRelations question_values t) →
        (_add_numeric_relations question_values ci ri (some t)).getD i 0 = 0)) ∧
    (∀ c r rel, (∃ rels, ((c, r), rels) ∈ cellIndicesToRelations question_values t ∧ rel ∈ rels) ↔
      ∃ value ∈ question_values, c < t.num_columns ∧ ∃ fn,
        _get_numeric_sort_key_fn (columnsToNumericValues t c) value = some fn ∧
        ∃ cv, (r, cv) ∈ columnsToNumericValues t c ∧
          get_numeric_relation value cv fn = some rel) := by
  refine ⟨?_, ?_, ?_⟩
  · intro value cell_value fn
    unfold get_numeric_relation
    dsimp only
    split_ifs with h1 h2 h3 <;> simp_all
  · intro i c r hi hci hri
    have hnodup : ((cellIndicesToRelations question_values t).map Prod.fst).Nodup := by
      rw [cellIndicesToRelations_eq]
      exact applyAdds_fst_nodup _ [] (by simp)
    constructor
    · intro rels hrels
      refine ⟨?_, ?_, ?_⟩
      · rw [add_numeric_relations_eq]
        refine rel_fold_written ci ri _ _ ((c, r), rels) hrels
          (fun e he hfst => eq_of_fst_nodup _ hnodup e ((c, r), rels) he hrels hfst)
          i ?_ (by simp)
        exact (mem_get_cell_token_indexes ci ri c r i).mpr ⟨hi, hci, hri⟩
      · refine applyAdds_rels_nodup (relAdditions question_values t) [] (by simp)
          ((c, r), rels) ?_
        rw [← cellIndicesToRelations_eq]
        exact hrels
      · refine applyAdds_rels_ne_nil (relAdditions question_values t) [] (by simp)
          ((c, r), rels) ?_
        rw [← cellIndicesToRelations_eq]
        exact hrels
    · intro hnone
      rw [add_numeric_relations_eq]
      rw [rel_fold_unchanged ci ri _ _ i ?_]
      · exact getD_replicate_self _ _ _
      · intro e he habs
        have h2 := (mem_get_cell_token_indexes ci ri e.1.1 e.1.2 i).mp habs
        refine hnone ⟨e.2, ?_⟩
        have hfst : e.1 = (c, r) := Prod.ext (by omega) (by omega)
        have : ((c, r), e.2) = e := by
          rw [← hfst]
        rw [this]
        exact he
  · intro c r rel
    rw [cellIndicesToRelations_eq, applyAdds_mem_rel _ [] (c, r) rel, mem_relAdditions]
    simp

/-- Witness for C5: on the two-column witness table with question value 30,
token 6 (the single token of the cell holding 30) receives the EQ bitmask
2 ^ 0 = 1. -/
theorem C5_numeric_relations_witness :
    ((6 : ℕ) < c4ci.length ∧ c4ci.getD 6 0 = 1 + 1 ∧ c4ri.getD 6 0 = 0 + 1) ∧
    (_add_numeric_relations [{ float_value := some 30, date := none }] c4ci c4ri
      (some c4Table)).getD 6 0 = relationSetIndex [Relation.EQ] := by
  have hmem : ((1, 0), [Relation.EQ]) ∈
      cellIndicesToRelations [{ float_value := some 30, date := none }] c4Table := by decide
  exact ⟨⟨by decide, by decide, by decide⟩,
    (((C5_numeric_relations [{ float_value := some 30, date := none }] c4ci c4ri c4Table).2.1
      6 1 0 (by decide) (by decide) (by decide)).1 [Relation.EQ] hmem).1⟩

theorem ranks_outer_length (ci ri : List ℕ) (t : NTable) (cs : List ℕ)
    (acc : List ℕ × List ℕ) :
    (cs.foldl (_add_numeric_column_ranks_body ci ri t) acc).1.length = acc.1.length ∧
    (cs.foldl (_add_numeric_column_ranks_body ci ri t) acc).2.length = acc.2.length := by
  induction cs generalizing acc with
  | nil => exact ⟨rfl, rfl⟩
  | cons d rest ih =>
    rw [List.foldl_cons]
    have h := ih (_add_numeric_column_ranks_body ci ri t acc d)
    have hb := column_ranks_body_length ci ri t acc d
    rw [h.1, h.2, hb.1, hb.2]
    exact ⟨rfl, rfl⟩

theorem add_numeric_column_ranks_some_eq (ci ri : List ℕ) (t : NTable) :
    _add_numeric_column_ranks ci ri (some t) =
      (List.range t.num_columns).foldl (_add_numeric_column_ranks_body ci ri t)
        (List.replicate ci.length 0, List.replicate ci.length 0) := rfl

theorem ranks_length (ci ri : List ℕ) (table : Option NTable) :
    (_add_numeric_column_ranks ci ri table).1.length = ci.length ∧
    (_add_numeric_column_ranks ci ri table).2.length = ci.length := by
  cases table with
  | none => constructor <;> simp [_add_numeric_column_ranks]
  | some t =>
    rw [add_numeric_column_ranks_some_eq]
    have h := ranks_outer_length ci ri t (List.range t.num_columns)
      (List.replicate ci.length 0, List.replicate ci.length 0)
    rw [h.1, h.2]
    constructor <;> simp

theorem ranks_default (ci ri : List ℕ) (table : Option NTable) (i : ℕ)
    (h : ci.getD i 0 = 0 ∨ ri.getD i 0 = 0) :
    (_add_numeric_column_ranks ci ri table).1.getD i 0 = 0 ∧
    (_add_numeric_column_ranks ci ri table).2.getD i 0 = 0 := by
  cases table with
  | none =>
    constructor <;> exact getD_replicate_self _ _ _
  | some t =>
    rw [add_numeric_column_ranks_some_eq]
    have hun := ranks_outer_unchanged ci ri t (List.range t.num_columns)
      (List.replicate ci.length 0, List.replicate ci.length 0) i ?_
    · rw [hun.1, hun.2]
      constructor <;> exact getD_replicate_self _ _ _
    · intro c hc acc2
      refine column_ranks_body_unchanged ci ri t c i ?_ acc2
      rcases h with h | h
      · left
        omega
      · right
        exact h

theorem rel_fold_length (ci ri : List ℕ) (D : List ((ℕ × ℕ) × List Relation))
    (arr : List ℕ) :
    (D.foldl (fun arr2 e =>
      setIdxs arr2 (_get_cell_token_indexes ci ri e.1.1 e.1.2) (relationSetIndex e.2)) arr).length =
      arr.length := by
  induction D generalizing arr with
  | nil => rfl
  | cons e rest ih =>
    rw [List.foldl_cons, ih, length_setIdxs]

theorem relations_length (question_values : List NumericValue) (ci ri : List ℕ)
    (table : Option NTable) :
    (_add_numeric_relations question_values ci ri table).length = ci.length := by
  cases table with
  | none => simp [_add_numeric_relations]
  | some t =>
    rw [add_numeric_relations_eq, rel_fold_length]
    simp

theorem relations_default (question_values : List NumericValue) (ci ri : List ℕ)
    (table : Option NTable) (i : ℕ) (h : ci.getD i 0 = 0 ∨ ri.getD i 0 = 0) :
    (_add_numeric_relations question_values ci ri table).getD i 0 = 0 := by
  cases table with
  | none => exact getD_replicate_self _ _ _
  | some t =>
    rw [add_numeric_relations_eq, rel_fold_unchanged ci ri _ _ i ?_]
    · exact getD_replicate_self _ _ _
    · intro e he habs
      have h2 := (mem_get_cell_token_indexes ci ri e.1.1 e.1.2 i).mp habs
      rcases h with h | h <;> omega

theorem foldlM_option_length {β : Type} (f : List (Option ℚ) → β → Option (List (Option ℚ)))
    (hf : ∀ a b c, f a b = some c → c.length = a.length) (l : List β) :
    ∀ a c, List.foldlM f a l = some c → c.length = a.length := by
  induction l with
  | nil =>
    intro a c h
    simp only [List.foldlM_nil] at h
    injection h with h
    rw [← h]
  | cons b rest ih =>
    intro a c h
    rw [List.foldlM_cons] at h
    cases hx : f a b with
    | none =>
      rw [hx] at h
      cases h
    | some a2 =>
      rw [hx] at h
      have h2 : List.foldlM f a2 rest = some c := h
      rw [ih a2 c h2, hf a b a2 hx]

theorem foldlM_option_unchanged {β : Type} (f : List (Option ℚ) → β → Option (List (Option ℚ)))
    (i : ℕ) (hf : ∀ a b c, f a b = some c → c.getD i none = a.getD i none) (l : List β) :
    ∀ a c, List.foldlM f a l = some c → c.getD i none = a.getD i none := by
  induction l with
  | nil =>
    intro a c h
    simp only [List.foldlM_nil] at h
    injection h with h
    rw [← h]
  | cons b rest ih =>
    intro a c h
    rw [List.foldlM_cons] at h
    cases hx : f a b with
    | none =>
      rw [hx] at h
      cases h
    | some a2 =>
      rw [hx] at h
      have h2 : List.foldlM f a2 rest = some c := h
      rw [ih a2 c h2, hf a b a2 hx]

theorem add_numeric_values_some_eq (model_max_length : ℕ) (t : NTable) (ci ri : List ℕ) :
    _add_numeric_values model_max_length (some t) ci ri =
      (List.range t.num_columns).foldlM (fun arr col_index =>
        if (columnsToNumericValues t col_index).isEmpty then some arr
        else
          (List.range t.cells.length).foldlM (fun arr row_index =>
            match (columnsToNumericValues t col_index).lookup row_index with
            | none => none
            | some nv =>
              match nv.float_value with
              | none => some arr
              | some x =>
                some (setIdxs arr (_get_cell_token_indexes ci ri col_index row_index) (some x)))
            arr)
        (List.replicate model_max_length none) := rfl

theorem numeric_values_length (model_max_length : ℕ) (table : Option NTable)
    (ci ri : List ℕ) (nv : List (Option ℚ))
    (h : _add_numeric_values model_max_length table ci ri = some nv) :
    nv.length = model_max_length := by
  cases table with
  | none =>
    injection h with h
    rw [← h]
    simp
  | some t =>
    rw [add_numeric_values_some_eq] at h
    have hlen := foldlM_option_length _ ?_ _ _ _ h
    · rw [hlen]
      simp
    · intro a b c hc
      by_cases he : (columnsToNumericValues t b).isEmpty
      · rw [if_pos he] at hc
        injection hc with hc
        rw [← hc]
      · rw [if_neg he] at hc
        refine foldlM_option_length _ ?_ _ _ _ hc
        intro a2 b2 c2 hc2
        cases hl : (columnsToNumericValues t b).lookup b2 with
        | none =>
          rw [hl] at hc2
          dsimp only at hc2
          cases hc2
        | some nv2 =>
          rw [hl] at hc2
          dsimp only at hc2
          cases hfv : nv2.float_value with
          | none =>
            rw [hfv] at hc2
            dsimp only at hc2
            injection hc2 with hc2
            rw [← hc2]
          | some x =>
            rw [hfv] at hc2
            dsimp only at hc2
            injection hc2 with hc2
            rw [← hc2, length_setIdxs]

theorem numeric_values_default (model_max_length : ℕ) (table : Option NTable)
    (ci ri : List ℕ) (i : ℕ) (hcr : ci.getD i 0 = 0 ∨ ri.getD i 0 = 0)
    (nv : List (Option ℚ))
    (h : _add_numeric_values model_max_length table ci ri = some nv) :
    nv.getD i none = none := by
  cases table with
  | none =>
    injection h with h
    rw [← h]
    exact getD_replicate_self _ _ _
  | some t =>
    rw [add_numeric_values_some_eq] at h
    have hun := foldlM_option_unchanged _ i ?_ _ _ _ h
    · rw [hun]
      exact getD_replicate_self _ _ _
    · intro a b c hc
      by_cases he : (columnsToNumericValues t b).isEmpty
      · rw [if_pos he] at hc
        injection hc with hc
        rw [← hc]
      · rw [if_neg he] at hc
        refine foldlM_option_unchanged _ i ?_ _ _ _ hc
        intro a2 b2 c2 hc2
        cases hl : (columnsToNumericValues t b).lookup b2 with
        | none =>
          rw [hl] at hc2
          dsimp only at hc2
          cases hc2
        | some nv2 =>
          rw [hl] at hc2
          dsimp only at hc2
          cases hfv : nv2.float_value with
          | none =>
            rw [hfv] at hc2
            dsimp only at hc2
            injection hc2 with hc2
            rw [← hc2]
          | some x =>
            rw [hfv] at hc2
            dsimp only at hc2
            injection hc2 with hc2
            rw [← hc2]
            refine getD_setIdxs_of_not_mem _ _ _ _ _ ?_
            intro habs
            have h2 := (mem_get_cell_token_indexes ci ri b b2 i).mp habs
            rcases hcr with h3 | h3 <;> omega

theorem foldl_preserve_length {β : Type} (f : List ℚ → β → List ℚ)
    (hf : ∀ a b, (f a b).length = a.length) (l : List β) :
    ∀ a, (l.foldl f a).length = a.length := by
  induction l with
  | nil => exact fun a => rfl
  | cons b rest ih =>
    intro a
    rw [List.foldl_cons, ih (f a b), hf]

theorem foldl_unchanged_q {β : Type} (f : List ℚ → β → List ℚ) (i : ℕ)
    (hf : ∀ a b, (f a b).getD i 1 = a.getD i 1) (l : List β) :
    ∀ a, (l.foldl f a).getD i 1 = a.getD i 1 := by
  induction l with
  | nil => exact fun a => rfl
  | cons b rest ih =>
    intro a
    rw [List.foldl_cons, ih (f a b), hf]

theorem add_numeric_values_scale_some_eq (model_max_length : ℕ) (t : NTable)
    (ci ri : List ℕ) :
    _add_numeric_values_scale model_max_length (some t) ci ri =
      (List.range t.num_columns).foldl (fun arr col_index =>
        (List.range t.cells.length).foldl (fun arr row_index =>
          let indices := _get_cell_token_indexes ci ri col_index row_index
          if 1 < indices.length then setIdxs arr indices (indices.length : ℚ) else arr) arr)
        (List.replicate model_max_length 1) := rfl

theorem scale_length (model_max_length : ℕ) (table : Option NTable) (ci ri : List ℕ) :
    (_add_numeric_values_scale model_max_length table ci ri).length = model_max_length := by
  cases table with
  | none => simp [_add_numeric_values_scale]
  | some t =>
    rw [add_numeric_values_scale_some_eq]
    rw [foldl_preserve_length _ ?_ _ _]
    · simp
    · intro a b
      rw [foldl_preserve_length _ ?_ _ _]
      intro a2 b2
      dsimp only
      split_ifs
      · exact length_setIdxs _ _ _
      · rfl

theorem scale_default (model_max_length : ℕ) (table : Option NTable) (ci ri : List ℕ)
    (i : ℕ) (hcr : ci.getD i 0 = 0 ∨ ri.getD i 0 = 0) :
    (_add_numeric_values_scale model_max_length table ci ri).getD i 1 = 1 := by
  cases table with
  | none => exact getD_replicate_self _ _ _
  | some t =>
    rw [add_numeric_values_scale_some_eq]
    rw [foldl_unchanged_q _ i ?_ _ _]
    · exact getD_replicate_self _ _ _
    · intro a b
      rw [foldl_unchanged_q _ i ?_ _ _]
      intro a2 b2
      dsimp only
      split_ifs
      · refine getD_setIdxs_of_not_mem _ _ _ _ _ ?_
        intro habs
        have h2 := (mem_get_cell_token_indexes ci ri b b2 i).mp habs
        rcases hcr with h3 | h3 <;> omega
      · rfl

/-- Claim C2. Every feature sequence emitted by _to_features has length
exactly the configured model max length (and any sequence run through
_pad_to_seq_length, such as the label id sequences, likewise), and the
padding region beyond the real tokens holds the pad values: 0 for the id
sequences (input, attention, segment, column, row, ranks, relations),
NaN (none) for numeric_values and 1.0 for numeric_values_scale. -/
theorem C2_feature_lengths (model_max_length : ℕ) (conv : String → ℕ)
    (tokens : List String) (segment_ids column_ids row_ids : List ℕ)
    (table : Option NTable) (question_values : List NumericValue) (fb : Features)
    (h : _to_features model_max_length conv tokens segment_ids column_ids row_ids
      table question_values = some fb) :
    (fb.input_ids.length = model_max_length ∧
     fb.attention_mask.length = model_max_length ∧
     fb.segment_ids.length = model_max_length ∧
     fb.column_ids.length = model_max_length ∧
     fb.row_ids.length = model_max_length ∧
     fb.column_ranks.length = model_max_length ∧
     fb.inv_column_ranks.length = model_max_length ∧
     fb.numeric_relations.length = model_max_length ∧
     fb.numeric_values.length = model_max_length ∧
     fb.numeric_values_scale.length = model_max_length) ∧
    (∀ l : List ℕ, (_pad_to_seq_length model_max_length l).length = model_max_length) ∧
    (∀ i, tokens.length ≤ i →
      fb.input_ids.getD i 0 = 0 ∧ fb.attention_mask.getD i 0 = 0 ∧
      fb.segment_ids.getD i 0 = 0 ∧ fb.column_ids.getD i 0 = 0 ∧
      fb.row_ids.getD i 0 = 0 ∧ fb.column_ranks.getD i 0 = 0 ∧
      fb.inv_column_ranks.getD i 0 = 0 ∧ fb.numeric_relations.getD i 0 = 0 ∧
      fb.numeric_values.getD i none = none ∧ fb.numeric_values_scale.getD i 1 = 1) := by
  unfold _to_features at h
  by_cases hg : segment_ids.length ≠ tokens.length ∨ column_ids.length ≠ tokens.length
      ∨ row_ids.length ≠ tokens.length
  · rw [if_pos hg] at h
    cases h
  · rw [if_neg hg] at h
    push_neg at hg
    obtain ⟨hs, hc, hr⟩ := hg
    dsimp only at h
    cases hnv : _add_numeric_values model_max_length table
        (_pad_to_seq_length model_max_length column_ids)
        (_pad_to_seq_length model_max_length row_ids) with
    | none =>
      rw [hnv] at h
      cases h
    | some nv =>
      rw [hnv] at h
      dsimp only at h
      injection h with h
      subst h
      refine ⟨⟨length_pad_to_seq_length _ _, length_pad_to_seq_length _ _,
        length_pad_to_seq_length _ _, length_pad_to_seq_length _ _,
        length_pad_to_seq_length _ _,
        (ranks_length _ _ _).1.trans (length_pad_to_seq_length _ _),
        (ranks_length _ _ _).2.trans (length_pad_to_seq_length _ _),
        (relations_length _ _ _ _).trans (length_pad_to_seq_length _ _),
        numeric_values_length _ _ _ _ _ hnv,
        scale_length _ _ _ _⟩,
        fun l => length_pad_to_seq_length _ _, ?_⟩
      intro i hi
      have hci0 : (_pad_to_seq_length model_max_length column_ids).getD i 0 = 0 :=
        getD_pad_to_seq_length_of_le _ _ _ (by omega)
      refine ⟨getD_pad_to_seq_length_of_le _ _ _ (by simp; omega),
        getD_pad_to_seq_length_of_le _ _ _ (by simp; omega),
        getD_pad_to_seq_length_of_le _ _ _ (by omega),
        hci0,
        getD_pad_to_seq_length_of_le _ _ _ (by omega),
        (ranks_default _ _ _ _ (Or.inl hci0)).1,
        (ranks_default _ _ _ _ (Or.inl hci0)).2,
        relations_default _ _ _ _ _ (Or.inl hci0),
        numeric_values_default _ _ _ _ _ (Or.inl hci0) _ hnv,
        scale_default _ _ _ _ _ (Or.inl hci0)⟩

/-- Witness for C2 on a one-token question with no table at model max
length 4: the bundle is defined and its sequences have length 4. -/
theorem C2_feature_lengths_witness :
    _to_features 4 (fun _ => 5) ["a"] [0] [0] [0] none [] = some c2fb ∧
    c2fb.input_ids.length = 4 ∧ c2fb.numeric_values.length = 4 ∧
    c2fb.numeric_values_scale.length = 4 :=
  ⟨rfl,
    (C2_feature_lengths 4 (fun _ => 5) ["a"] [0] [0] [0] none [] c2fb rfl).1.1,
    (C2_feature_lengths 4 (fun _ => 5) ["a"] [0] [0] [0] none [] c2fb rfl).1.2.2.2.2.2.2.2.2.1,
    (C2_feature_lengths 4 (fun _ => 5) ["a"] [0] [0] [0] none [] c2fb rfl).1.2.2.2.2.2.2.2.2.2⟩

/-- Claim C10. Every numeric-feature writer leaves non-cell token
positions at the defaults: at any index whose column id or row id is 0
(CLS, question, SEP, header-row and padding positions), the column ranks
and inverse ranks stay 0, the numeric relation stays 0, the numeric
value stays NaN (none), and the scale stays 1.0; equivalently the
writers touch only indexes whose column and row ids are both at least
1. -/
theorem C10_noncell_defaults (model_max_length : ℕ) (table : Option NTable)
    (question_values : List NumericValue) (ci ri : List ℕ) (i : ℕ)
    (h : ci.getD i 0 = 0 ∨ ri.getD i 0 = 0) :
    (_add_numeric_column_ranks ci ri table).1.getD i 0 = 0 ∧
    (_add_numeric_column_ranks ci ri table).2.getD i 0 = 0 ∧
    (_add_numeric_relations question_values ci ri table).getD i 0 = 0 ∧
    (∀ nv, _add_numeric_values model_max_length table ci ri = some nv →
      nv.getD i none = none) ∧
    (_add_numeric_values_scale model_max_length table ci ri).getD i 1 = 1 :=
  ⟨(ranks_default ci ri table i h).1, (ranks_default ci ri table i h).2,
    relations_default question_values ci ri table i h,
    fun nv hnv => numeric_values_default model_max_length table ci ri i h nv hnv,
    scale_default model_max_length table ci ri i h⟩

theorem sum_le_mul_length (l : List ℚ) (t : ℚ) (h : ∀ x ∈ l, x ≤ t) :
    l.sum ≤ t * l.length := by
  induction l with
  | nil => simp
  | cons x xs ih =>
    rw [List.sum_cons, List.length_cons]
    have h1 := h x (List.mem_cons_self x xs)
    have h2 := ih (fun y hy => h y (List.mem_cons_of_mem x hy))
    push_cast
    have he : t * ((xs.length : ℚ) + 1) = t * (xs.length : ℚ) + t := by ring
    linarith

theorem mul_length_lt_sum (l : List ℚ) (t : ℚ) (hne : l ≠ []) (h : ∀ x ∈ l, t < x) :
    t * l.length < l.sum := by
  induction l with
  | nil => exact absurd rfl hne
  | cons x xs ih =>
    rw [List.sum_cons, List.length_cons]
    have h1 := h x (List.mem_cons_self x xs)
    by_cases hxs : xs = []
    · subst hxs
      simp only [List.length_nil, List.sum_nil]
      push_cast
      linarith
    · have h2 := ih hxs (fun y hy => h y (List.mem_cons_of_mem x hy))
      push_cast
      have he : t * ((xs.length : ℚ) + 1) = t * (xs.length : ℚ) + t := by ring
      linarith

theorem mean_gt_threshold (l : List ℚ) (t : ℚ) (hne : l ≠ []) (h : ∀ x ∈ l, t < x) :
    t < l.sum / (l.length : ℚ) := by
  have hlen : (0 : ℚ) < (l.length : ℚ) := by
    have := List.length_pos.mpr hne
    exact_mod_cast this
  rw [lt_div_iff₀ hlen]
  exact mul_length_lt_sum l t hne h

theorem mean_le_threshold (l : List ℚ) (t : ℚ) (hne : l ≠ []) (h : ∀ x ∈ l, x ≤ t) :
    l.sum / (l.length : ℚ) ≤ t := by
  have hlen : (0 : ℚ) < (l.length : ℚ) := by
    have := List.length_pos.mpr hne
    exact_mod_cast this
  rw [div_le_iff₀ hlen]
  exact sum_le_mul_length l t h

theorem mem_cellProbList (probs : List ℚ) (segs ris cis : List ℕ) (col row : ℕ) (x : ℚ) :
    x ∈ cellProbList probs segs ris cis col row ↔
      ∃ i, i < probs.length ∧ tokenQualifies segs cis ris i ∧
        cis.getD i 0 = col + 1 ∧ ris.getD i 0 = row + 1 ∧ x = probs.getD i 0 := by
  unfold cellProbList
  rw [List.mem_filterMap]
  constructor
  · rintro ⟨i, hi, hsome⟩
    rw [List.mem_range] at hi
    by_cases hq : tokenQualifies segs cis ris i ∧ cis.getD i 0 = col + 1 ∧ ris.getD i 0 = row + 1
    · rw [if_pos hq] at hsome
      injection hsome with hsome
      exact ⟨i, hi, hq.1, hq.2.1, hq.2.2, hsome.symm⟩
    · rw [if_neg hq] at hsome
      cases hsome
  · rintro ⟨i, hi, h1, h2, h3, h4⟩
    exact ⟨i, List.mem_range.mpr hi, by rw [if_pos ⟨h1, h2, h3⟩, h4]⟩

theorem init_le_foldl_max (l : List ℕ) : ∀ a, a ≤ l.foldl max a := by
  induction l with
  | nil => exact fun a => le_refl a
  | cons y ys ih => exact fun a => le_trans (Nat.le_max_left a y) (ih (max a y))

theorem mem_le_foldl_max (l : List ℕ) : ∀ a x, x ∈ l → x ≤ l.foldl max a := by
  induction l with
  | nil =>
    intro a x h
    cases h
  | cons y ys ih =>
    intro a x h
    rcases List.mem_cons.mp h with rfl | h2
    · exact le_trans (Nat.le_max_right a x) (init_le_foldl_max ys (max a x))
    · exact ih (max a y) x h2

theorem decodeExample_eq_some (d : ExampleData) (threshold : ℚ)
    (h : ¬(d.column_ids.foldl max 0 = 0 ∧ d.row_ids.foldl max 0 = 0)) :
    decodeExample d threshold =
      some (((List.range (d.column_ids.foldl max 0)).flatMap (fun col =>
        (List.range (d.row_ids.foldl max 0)).filterMap (fun row =>
          match _get_mean_cell_probs d.probabilities d.segment_ids d.row_ids d.column_ids
              col row with
          | none => none
          | some q => if q > threshold then some (row, col) else none))).insertionSort
        coordLe) := by
  unfold decodeExample
  dsimp only
  rw [if_neg h]

theorem decode_entry_eq (d : ExampleData) (threshold : ℚ) (col row : ℕ) (p : ℕ × ℕ)
    (h : (match _get_mean_cell_probs d.probabilities d.segment_ids d.row_ids d.column_ids
        col row with
      | none => none
      | some q => if q > threshold then some (row, col) else none) = some p) :
    p = (row, col) := by
  cases hm : _get_mean_cell_probs d.probabilities d.segment_ids d.row_ids d.column_ids
      col row with
  | none =>
    rw [hm] at h
    cases h
  | some q =>
    rw [hm] at h
    dsimp only at h
    by_cases hq : q > threshold
    · rw [if_pos hq] at h
      injection h with h
      exact h.symm
    · rw [if_neg hq] at h
      cases h

theorem mem_decode_base (d : ExampleData) (threshold : ℚ) (pr pc : ℕ) :
    (pr, pc) ∈ (List.range (d.column_ids.foldl max 0)).flatMap (fun col =>
      (List.range (d.row_ids.foldl max 0)).filterMap (fun row =>
        match _get_mean_cell_probs d.probabilities d.segment_ids d.row_ids d.column_ids
            col row with
        | none => none
        | some q => if q > threshold then some (row, col) else none)) ↔
      pc < d.column_ids.foldl max 0 ∧ pr < d.row_ids.foldl max 0 ∧
      ∃ q, _get_mean_cell_probs d.probabilities d.segment_ids d.row_ids d.column_ids
        pc pr = some q ∧ threshold < q := by
  rw [List.mem_flatMap]
  constructor
  · rintro ⟨col, hcol, hmem⟩
    rw [List.mem_filterMap] at hmem
    rcases hmem with ⟨row, hrow, hsome⟩
    have heq := decode_entry_eq d threshold col row (pr, pc) hsome
    injection heq with he1 he2
    subst he1
    subst he2
    cases hm : _get_mean_cell_probs d.probabilities d.segment_ids d.row_ids d.column_ids
        pc pr with
    | none =>
      rw [hm] at hsome
      cases hsome
    | some q =>
      rw [hm] at hsome
      dsimp only at hsome
      by_cases hq : q > threshold
      · exact ⟨List.mem_range.mp hcol, List.mem_range.mp hrow, q, rfl, hq⟩
      · rw [if_neg hq] at hsome
        cases hsome
  · rintro ⟨hcol, hrow, q, hm, hq⟩
    refine ⟨pc, List.mem_range.mpr hcol, ?_⟩
    rw [List.mem_filterMap]
    refine ⟨pr, List.mem_range.mpr hrow, ?_⟩
    rw [hm]
    dsimp only
    rw [if_pos hq]

theorem nodup_flatMap_snd_tag (w : ℕ) (g : ℕ → List (ℕ × ℕ))
    (hsnd : ∀ c p, p ∈ g c → p.2 = c) (hn : ∀ c, (g c).Nodup) :
    ((List.range w).flatMap g).Nodup := by
  induction w with
  | zero => exact List.nodup_nil
  | succ n ih =>
    rw [List.range_succ, List.flatMap_append]
    refine List.Nodup.append ih ?_ ?_
    · rw [List.flatMap_cons, List.flatMap_nil, List.append_nil]
      exact hn n
    · intro p hp1 hp2
      rw [List.mem_flatMap] at hp1
      rcases hp1 with ⟨c, hc, hpc⟩
      rw [List.flatMap_cons, List.flatMap_nil, List.append_nil] at hp2
      have h1 := hsnd c p hpc
      have h2 := hsnd n p hp2
      rw [List.mem_range] at hc
      omega

/-- Claim C3 (amended). When a batch element is not skipped (its maximal
column id and row id are not both zero): if the probabilities of all
qualifying tokens of cells in the set X exceed the threshold, the
probabilities of all other qualifying tokens are at most the threshold,
and every cell of X has at least one qualifying token, then the decoder
returns for that element exactly the coordinates of X as (row, column)
pairs, sorted ascending by (row, column) and without duplicates. As
stated the claim is false: a batch element whose ids are all zero is
skipped entirely and contributes no entry to the output. -/
theorem C3_decoder_round_trip (d : ExampleData) (threshold : ℚ) (X : List (ℕ × ℕ))
    (hlc : d.column_ids.length = d.probabilities.length)
    (hlr : d.row_ids.length = d.probabilities.length)
    (hskip : ¬(d.column_ids.foldl max 0 = 0 ∧ d.row_ids.foldl max 0 = 0))
    (hprob : ∀ i col row, i < d.probabilities.length →
      tokenQualifies d.segment_ids d.column_ids d.row_ids i →
      d.column_ids.getD i 0 = col + 1 → d.row_ids.getD i 0 = row + 1 →
      ((row, col) ∈ X → threshold < d.probabilities.getD i 0) ∧
      ((row, col) ∉ X → d.probabilities.getD i 0 ≤ threshold))
    (hX : ∀ p ∈ X, ∃ i, i < d.probabilities.length ∧
      tokenQualifies d.segment_ids d.column_ids d.row_ids i ∧
      d.column_ids.getD i 0 = p.2 + 1 ∧ d.row_ids.getD i 0 = p.1 + 1) :
    ∃ out, decodeExample d threshold = some out ∧
      (∀ p, p ∈ out ↔ p ∈ X) ∧ out.Sorted coordLe ∧ out.Nodup := by
  refine ⟨_, decodeExample_eq_some d threshold hskip, ?_, ?_, ?_⟩
  · rintro ⟨pr, pc⟩
    rw [(List.perm_insertionSort coordLe _).mem_iff, mem_decode_base]
    constructor
    · rintro ⟨hw, hh, q, hm, hq⟩
      by_cases hmem : (pr, pc) ∈ X
      · exact hmem
      · exfalso
        unfold _get_mean_cell_probs at hm
        dsimp only at hm
        by_cases he : (cellProbList d.probabilities d.segment_ids d.row_ids d.column_ids
            pc pr).isEmpty
        · rw [if_pos he] at hm
          cases hm
        · rw [if_neg he] at hm
          injection hm with hm
          have hne : cellProbList d.probabilities d.segment_ids d.row_ids d.column_ids
              pc pr ≠ [] := by
            intro habs
            rw [habs] at he
            exact he rfl
          have hle := mean_le_threshold _ threshold hne ?_
          · rw [← hm] at hq
            linarith
          · intro x hx
            rw [mem_cellProbList] at hx
            rcases hx with ⟨j, hj, hqj, hcj, hrj, hxj⟩
            rw [hxj]
            exact (hprob j pc pr hj hqj hcj hrj).2 hmem
    · intro hmem
      obtain ⟨i, hi, hq2, hc2, hr2⟩ := hX (pr, pc) hmem
      have hmemci : d.column_ids.getD i 0 ∈ d.column_ids := by
        rw [List.getD_eq_getElem?_getD, List.getElem?_eq_getElem (by omega)]
        exact List.getElem_mem _
      have hmemri : d.row_ids.getD i 0 ∈ d.row_ids := by
        rw [List.getD_eq_getElem?_getD, List.getElem?_eq_getElem (by omega)]
        exact List.getElem_mem _
      have hw : pc < d.column_ids.foldl max 0 := by
        have := mem_le_foldl_max d.column_ids 0 _ hmemci
        omega
      have hh : pr < d.row_ids.foldl max 0 := by
        have := mem_le_foldl_max d.row_ids 0 _ hmemri
        omega
      have hpmem : d.probabilities.getD i 0 ∈
          cellProbList d.probabilities d.segment_ids d.row_ids d.column_ids pc pr := by
        rw [mem_cellProbList]
        exact ⟨i, hi, hq2, hc2, hr2, rfl⟩
      have hne : cellProbList d.probabilities d.segment_ids d.row_ids d.column_ids
          pc pr ≠ [] := by
        intro habs
        rw [habs] at hpmem
        cases hpmem
      refine ⟨hw, hh,
        (cellProbList d.probabilities d.segment_ids d.row_ids d.column_ids pc pr).sum /
          ((cellProbList d.probabilities d.segment_ids d.row_ids d.column_ids pc pr).length : ℚ),
        ?_, ?_⟩
      · unfold _get_mean_cell_probs
        dsimp only
        rw [if_neg ?_]
        intro habs
        rw [List.isEmpty_iff] at habs
        exact hne habs
      · refine mean_gt_threshold _ threshold hne ?_
        intro x hx
        rw [mem_cellProbList] at hx
        rcases hx with ⟨j, hj, hqj, hcj, hrj, hxj⟩
        rw [hxj]
        exact (hprob j pc pr hj hqj hcj hrj).1 hmem
  · exact List.sorted_insertionSort coordLe _
  · rw [(List.perm_insertionSort coordLe _).nodup_iff]
    refine nodup_flatMap_snd_tag _ _ ?_ ?_
    · intro c p hp
      rw [List.mem_filterMap] at hp
      rcases hp with ⟨row, _, hsome⟩
      rw [decode_entry_eq d threshold c row p hsome]
    · intro c
      refine List.Nodup.filterMap ?_ (List.nodup_range _)
      intro a a' b hb hb'
      rw [Option.mem_def] at hb hb'
      have h1 := decode_entry_eq d threshold c a b hb
      have h2 := decode_entry_eq d threshold c a' b hb'
      rw [h1] at h2
      exact (Prod.ext_iff.mp h2).1

/-- Witness for C3 on a one-token example whose single qualifying token
(cell column 0, row 0) has probability 1 above the threshold 1/2. -/
theorem C3_decoder_round_trip_witness :
    (¬(([1] : List ℕ).foldl max 0 = 0 ∧ ([1] : List ℕ).foldl max 0 = 0)) ∧
    ∃ out, decodeExample ⟨[1], [1], [1], [1]⟩ (mkRat 1 2) = some out ∧
      (∀ p, p ∈ out ↔ p ∈ [((0 : ℕ), (0 : ℕ))]) ∧ out.Sorted coordLe ∧ out.Nodup := by
  refine ⟨by decide, ?_⟩
  refine C3_decoder_round_trip ⟨[1], [1], [1], [1]⟩ (mkRat 1 2) [(0, 0)] rfl rfl
    (by decide) ?_ ?_
  · intro i col row hi hq hc hr
    have hi' : i < 1 := hi
    have hi0 : i = 0 := by omega
    subst hi0
    have hc' : (1 : ℕ) = col + 1 := hc
    have hr' : (1 : ℕ) = row + 1 := hr
    have hcol : col = 0 := by omega
    have hrow : row = 0 := by omega
    subst hcol
    subst hrow
    constructor
    · intro _
      decide
    · intro hmem
      exact absurd (by decide) hmem
  · intro p hp
    rw [List.mem_singleton] at hp
    subst hp
    exact ⟨0, by decide, by decide, by decide, by decide⟩

/-- Counterexample to C3 as frozen: a batch element whose column and row
ids are all zero (empty table) is skipped by the decoder and yields no
output entry at all, so with X empty the output is not one empty
coordinate list per batch element but the empty batch. -/
theorem C3_counterexample :
    (convert_logits_to_predictions [c3d] (mkRat 1 2)).length = 0 ∧
    ([c3d] : List ExampleData).length = 1 := ⟨rfl, rfl⟩

/-- Witness for C10 at token 0 (the CLS position) of the witness
example over the two-column table. -/
theorem C10_noncell_defaults_witness :
    (c4ci.getD 0 0 = 0 ∨ c4ri.getD 0 0 = 0) ∧
    (_add_numeric_column_ranks c4ci c4ri (some c4Table)).1.getD 0 0 = 0 ∧
    (_add_numeric_values_scale 10 (some c4Table) c4ci c4ri).getD 0 1 = 1 :=
  ⟨Or.inl rfl,
    (C10_noncell_defaults 10 (some c4Table) [] c4ci c4ri 0 (Or.inl rfl)).1,
    (C10_noncell_defaults 10 (some c4Table) [] c4ci c4ri 0 (Or.inl rfl)).2.2.2.2⟩

end Tapas

